import Mathlib

/-!
Verification of the CineAI processing/fusion/embedding/indexing/retrieval core.

This file gives a shallow embedding of the Python services in
`backend/app/services/` (semantic_search_service.py, nlp_service.py,
intent_embedding_service.py, query_expansion_service.py, orchestrator.py)
over exact rationals, together with theorems settling the frozen claims.
Numeric values copy the source constants; Python string operations
(`str.count`, `in`, `str.lower`, `str.split`, `re.findall`) are modelled by
executable functions on `List Char` / `String`.
-/

/-- Model of Python `str.lower()` (ASCII case folding, which covers all
strings appearing in the services). -/
def pyLower (s : String) : String := ⟨s.data.map Char.toLower⟩

/-- Auxiliary scanner for `pyCount`: counts non-overlapping occurrences of a
pattern in a character list, scanning left to right, exactly as Python
`str.count` does. The fuel argument (instantiated with the list length, which
always suffices because every step strictly shortens the list) keeps the
recursion structural so that the kernel can evaluate it. -/
def countOccAux (pat : List Char) : Nat → List Char → Nat
  | 0, _ => 0
  | _, [] => 0
  | fuel + 1, c :: t =>
    if pat.isPrefixOf (c :: t) then 1 + countOccAux pat fuel (t.drop (pat.length - 1))
    else countOccAux pat fuel t

/-- Model of Python `haystack.count(pat)`: number of non-overlapping
occurrences. Python returns `len+1` for the empty pattern. -/
def pyCount (pat s : String) : Nat :=
  if pat.data = [] then s.data.length + 1
  else countOccAux pat.data s.data.length s.data

/-- Substring test on character lists (model of the Python `in` operator on
strings). -/
def isSubstr (pat : List Char) : List Char → Bool
  | [] => pat.isEmpty
  | c :: t => pat.isPrefixOf (c :: t) || isSubstr pat t

/-- Model of Python `pat in s` for strings. -/
def pyIn (pat s : String) : Bool := isSubstr pat.data s.data

/-- Model of Python `str.strip()` (whitespace trim on both ends). -/
def pyStrip (s : String) : String :=
  ⟨((s.data.dropWhile Char.isWhitespace).reverse.dropWhile Char.isWhitespace).reverse⟩

/-- Maximal runs of characters satisfying `p`, as strings. Used to model both
whitespace splitting and word tokenization. -/
def runsAux (p : Char → Bool) : List Char → List Char → List String
  | acc, [] => if acc = [] then [] else [⟨acc.reverse⟩]
  | acc, c :: t =>
    if p c then runsAux p (c :: acc) t
    else if acc = [] then runsAux p [] t
    else ⟨acc.reverse⟩ :: runsAux p [] t

/-- Model of Python `str.split()` with no argument: the maximal runs of
non-whitespace characters. -/
def pySplitWs (s : String) : List String :=
  runsAux (fun c => !c.isWhitespace) [] s.data

/-- Word characters of the regex `\w` (ASCII view, enough for the query
strings handled by the services). -/
def isWordChar (c : Char) : Bool := c.isAlphanum || c = '_'

/-- Model of `re.findall(r"\b\w+\b", s)`: the list of maximal word-character
runs of `s`. -/
def pyFindWords (s : String) : List String := runsAux isWordChar [] s.data

/-- Model of `sum(ord(c) for c in s)`. -/
def sumOrd (s : String) : Nat := (s.data.map Char.toNat).sum

/-- Model of Python slicing `s[:n]` on strings. -/
def pyTake (n : Nat) (s : String) : String := ⟨s.data.take n⟩

/-- Round-half-to-even on rationals (the rounding mode of Python `round`). -/
def roundHalfEven (q : ℚ) : ℤ :=
  let f := ⌊q⌋
  let r := q - f
  if r < 1 / 2 then f
  else if 1 / 2 < r then f + 1
  else if Even f then f else f + 1

/-- Model of Python `round(x, 3)`. -/
def round3 (q : ℚ) : ℚ := (roundHalfEven (q * 1000) : ℚ) / 1000

/-- Sum of squares of a rational vector; `sumSq v = ‖v‖₂²`. -/
def sumSq (v : List ℚ) : ℚ := (v.map fun x => x * x).sum

/-- Dot product of two rational vectors (model of `np.dot` on rows). -/
def dotProd (q v : List ℚ) : ℚ := (List.zipWith (· * ·) q v).sum

/-- Model of `v / c` on numpy vectors: componentwise division by a scalar.
The scalar of interest is `np.linalg.norm(v)`, which is passed in as an
argument because `√(sumSq v)` is irrational in general; theorems constrain it
by the hypothesis `c ^ 2 = sumSq v`. -/
def normalizeBy (c : ℚ) (v : List ℚ) : List ℚ := v.map fun x => x / c

theorem sumSq_nonneg (v : List ℚ) : 0 ≤ sumSq v := by
  induction v with
  | nil => simp [sumSq]
  | cons x t ih =>
    simp only [sumSq, List.map_cons, List.sum_cons]
    have : 0 ≤ x * x := mul_self_nonneg x
    simp only [sumSq] at ih
    linarith

theorem sumSq_normalizeBy (c : ℚ) (v : List ℚ) (hc : c ≠ 0) :
    sumSq (normalizeBy c v) = sumSq v / c ^ 2 := by
  induction v with
  | nil => simp [sumSq, normalizeBy]
  | cons x t ih =>
    simp only [sumSq, normalizeBy, List.map_cons, List.sum_cons] at *
    rw [ih]
    field_simp
    ring

/-- Stable insertion of an element into a list according to a Boolean
comparison `r`: the element is placed before the first entry it compares
favourably with. `sortS r` below is the model of a stable sort (Python
`list.sort` is documented stable; numpy argsort is stable on the small arrays
arising here, where its introsort reduces to insertion sort). -/
def insertS (r : α → α → Bool) (x : α) : List α → List α
  | [] => [x]
  | y :: ys => if r x y then x :: y :: ys else y :: insertS r x ys

/-- Stable insertion sort by the Boolean comparison `r`. -/
def sortS (r : α → α → Bool) : List α → List α
  | [] => []
  | x :: xs => insertS r x (sortS r xs)

theorem mem_insertS (r : α → α → Bool) (x a : α) (l : List α) :
    a ∈ insertS r x l ↔ a = x ∨ a ∈ l := by
  induction l with
  | nil => simp [insertS]
  | cons y ys ih =>
    by_cases h : r x y
    · simp [insertS, h]
    · simp only [insertS, if_neg h, List.mem_cons, ih]
      tauto

theorem mem_sortS (r : α → α → Bool) (a : α) (l : List α) :
    a ∈ sortS r l ↔ a ∈ l := by
  induction l with
  | nil => simp [sortS]
  | cons x xs ih => simp [sortS, mem_insertS, ih]

/-- Stability and sortedness of `sortS`, packaged as one pairwise statement:
if the comparison `r` is reflected by a rational key `f` and the input carries
strictly increasing tags `ι` (the insertion positions), then the output is
pairwise ordered by key, with ties resolved by tag. -/
theorem pairwise_insertS (f : α → ℚ) (ι : α → Nat) (r : α → α → Bool)
    (hr : ∀ a b, r a b = true ↔ f a ≤ f b) (x : α) (l : List α)
    (hl : l.Pairwise fun a b => f a < f b ∨ (f a = f b ∧ ι a < ι b))
    (hx : ∀ y ∈ l, ι x < ι y) :
    (insertS r x l).Pairwise fun a b => f a < f b ∨ (f a = f b ∧ ι a < ι b) := by
  induction l with
  | nil => simp [insertS]
  | cons y ys ih =>
    rcases List.pairwise_cons.mp hl with ⟨hy, hys⟩
    by_cases h : r x y
    · have hxy : f x ≤ f y := (hr x y).mp h
      simp only [insertS, h, if_true]
      refine List.pairwise_cons.mpr ⟨?_, List.pairwise_cons.mpr ⟨hy, hys⟩⟩
      intro z hz
      rcases List.mem_cons.mp hz with rfl | hz
      · rcases lt_or_eq_of_le hxy with h1 | h1
        · exact Or.inl h1
        · exact Or.inr ⟨h1, hx z (List.mem_cons_self _ _)⟩
      · rcases hy z hz with h1 | ⟨h1, h2⟩
        · exact Or.inl (lt_of_le_of_lt hxy h1)
        · rcases lt_or_eq_of_le hxy with h3 | h3
          · exact Or.inl (h1 ▸ h3)
          · exact Or.inr ⟨h3.trans h1, hx z (List.mem_cons_of_mem _ hz)⟩
    · have hyx : f y < f x := by
        have hnle : ¬f x ≤ f y := fun hle => h ((hr x y).mpr hle)
        exact not_le.mp hnle
      simp only [insertS, if_neg h]
      refine List.pairwise_cons.mpr ⟨?_, ih hys fun z hz => hx z (List.mem_cons_of_mem _ hz)⟩
      intro z hz
      rcases (mem_insertS r x z ys).mp hz with rfl | hz
      · exact Or.inl hyx
      · exact hy z hz

theorem pairwise_sortS (f : α → ℚ) (ι : α → Nat) (r : α → α → Bool)
    (hr : ∀ a b, r a b = true ↔ f a ≤ f b) (l : List α)
    (hl : l.Pairwise fun a b => ι a < ι b) :
    (sortS r l).Pairwise fun a b => f a < f b ∨ (f a = f b ∧ ι a < ι b) := by
  induction l with
  | nil => simp [sortS]
  | cons x xs ih =>
    rcases List.pairwise_cons.mp hl with ⟨hx, hxs⟩
    exact pairwise_insertS f ι r hr x (sortS r xs) (ih hxs)
      fun y hy => hx y ((mem_sortS r y xs).mp hy)

/-- Index-value pairs of a list, indices starting at `n` (model of
`enumerate` / implicit numpy row indices). -/
def withIdxFrom (n : Nat) : List ℚ → List (Nat × ℚ)
  | [] => []
  | x :: xs => (n, x) :: withIdxFrom (n + 1) xs

theorem withIdxFrom_spec (l : List ℚ) :
    ∀ n p, p ∈ withIdxFrom n l → n ≤ p.1 ∧ l.getD (p.1 - n) 0 = p.2 := by
  induction l with
  | nil => intro n p hp; simp [withIdxFrom] at hp
  | cons x xs ih =>
    intro n p hp
    rcases List.mem_cons.mp hp with rfl | hp
    · simp
    · rcases ih (n + 1) p hp with ⟨h1, h2⟩
      refine ⟨by omega, ?_⟩
      have : p.1 - n = (p.1 - (n + 1)) + 1 := by omega
      rw [this]
      simpa using h2

theorem withIdxFrom_pairwise (l : List ℚ) :
    ∀ n, (withIdxFrom n l).Pairwise fun a b => a.1 < b.1 := by
  induction l with
  | nil => intro n; simp [withIdxFrom]
  | cons x xs ih =>
    intro n
    refine List.pairwise_cons.mpr ⟨?_, ih (n + 1)⟩
    intro p hp
    have := (withIdxFrom_spec xs (n + 1) p hp).1
    omega

/-- Comparison used to model `np.argsort` (ascending by score, stable). -/
def rAscSnd (a b : Nat × ℚ) : Bool := a.2 ≤ b.2

/-- Model of `np.argsort(scores)` (ascending, ties left in original order). -/
def npArgsortAsc (scores : List ℚ) : List Nat :=
  (sortS rAscSnd (withIdxFrom 0 scores)).map (·.1)

/-- Model of the numpy slice `a[-k:]`: the last `k` entries, the whole array
when `k = 0` (Python `-0` is `0`) or when `k` exceeds the length. -/
def npTailSlice (k : Nat) (l : List Nat) : List Nat :=
  if k = 0 then l else l.drop (l.length - k)

/-- Model of `NumpyIndex.search` from semantic_search_service.py: dot products
of the query against all rows, ascending argsort, last `k` reversed, and the
scores gathered at those indices. Returns `(top_scores, indices)`. -/
def numpyIndexSearch (vectors : List (List ℚ)) (q : List ℚ) (k : Nat) :
    List ℚ × List Nat :=
  if vectors.length = 0 then ([], [])
  else
    let scores := vectors.map (dotProd q)
    let indices := (npTailSlice k (npArgsortAsc scores)).reverse
    (indices.map fun i => scores.getD i 0, indices)

/-- Comparison for descending-by-score stable ordering on index/score pairs. -/
def rDescSnd (a b : Nat × ℚ) : Bool := b.2 ≤ a.2

/-- Modelled from the spec: `faiss.IndexFlatIP.search` is an external library
call, specified as an exact inner-product nearest-neighbour search over the
stored vectors — all dot products, sorted by descending score (deterministic,
ties by insertion order), truncated to `k`. Returns `(scores, indices)`. -/
def faissIPSearch (vectors : List (List ℚ)) (q : List ℚ) (k : Nat) :
    List ℚ × List Nat :=
  let pairs := (sortS rDescSnd (withIdxFrom 0 (vectors.map (dotProd q)))).take k
  (pairs.map (·.2), pairs.map (·.1))

/-- Behavioural audio markers stored in moment metadata. -/
structure AudioFeats where
  laughter_detected : Bool
  pause_before_duration : ℚ
  pause_after_duration : ℚ
deriving DecidableEq

/-- Timing metadata of a moment. -/
structure TimingData where
  pattern : String
  reaction_delay : ℚ
deriving DecidableEq

/-- One metadata record appended by `index_moment` (the dict literal of
semantic_search_service.py lines 236-247, minus the embedding itself). -/
structure MomentMeta where
  moment_id : Int
  take_id : Int
  start_time : ℚ
  end_time : ℚ
  transcript_snippet : String
  emotion_label : String
  file_name : String
  file_path : String
  audio_features : AudioFeats
  timing_data : TimingData
deriving DecidableEq

/-- Placeholder metadata record (used only as the `getD` default at indices
the code has already checked to be in range). -/
def dummyMeta : MomentMeta :=
  ⟨0, 0, 0, 0, "", "neutral", "", "", ⟨false, 0, 0⟩, ⟨"", 0⟩⟩

/-- Equality filters of `search_by_intent` (`filters.get("take_id")`,
`filters.get("emotion")`). -/
structure Filters where
  take_id : Option Int
  emotion : Option String
deriving DecidableEq

/-- The mutable state of `SemanticSearchService`: the vector store (FAISS
index or `NumpyIndex` rows) plus the parallel metadata list. -/
structure ServiceState where
  vectors : List (List ℚ)
  metadata : List MomentMeta
deriving DecidableEq

/-- One search result (the `SearchResult` dataclass without the prose
`reasoning` payload, which no claim concerns). -/
structure SearchResultM where
  result_id : Nat
  take_id : Int
  moment_id : Int
  start_time : ℚ
  end_time : ℚ
  confidence : ℚ
  transcript_snippet : String
  emotion_label : String
  file_name : String
  file_path : String
deriving DecidableEq

/-- The vector actually stored by `index_moment`: the embedding is divided by
its L2 norm when that norm is positive, else stored as is. The norm function
is a parameter constrained in theorems by `(norm v) ^ 2 = sumSq v`. -/
def storedVector (norm : List ℚ → ℚ) (embedding : List ℚ) : List ℚ :=
  if 0 < norm embedding then normalizeBy (norm embedding) embedding else embedding

/-- Model of `SemanticSearchService.index_moment`: append the (normalized)
vector to the index and the metadata record to the parallel list. -/
def index_moment (norm : List ℚ → ℚ) (st : ServiceState) (embedding : List ℚ)
    (meta : MomentMeta) : ServiceState :=
  ⟨st.vectors ++ [storedVector norm embedding], st.metadata ++ [meta]⟩

/-- A sequence of `index_moment` calls, applied in order. -/
def applyIndexMoments (norm : List ℚ → ℚ) (st : ServiceState)
    (calls : List (List ℚ × MomentMeta)) : ServiceState :=
  calls.foldl (fun s c => index_moment norm s c.1 c.2) st

/-- A fresh index: no vectors, no metadata (`_create_new_index`). -/
def freshState : ServiceState := ⟨[], []⟩

/-- Model of the mock embedding path (intent_embedding_service.py): a
deterministic pseudo-random vector seeded by `hash(text) % 2**32`, divided by
its L2 norm. `pyHash`, `randn` and `norm` abstract `hash`, the seeded
`np.random.randn` stream and `np.linalg.norm`. -/
def mockEmbedding (pyHash : String → Nat) (randn : Nat → List ℚ)
    (norm : List ℚ → ℚ) (text : String) : List ℚ :=
  normalizeBy (norm (randn (pyHash text % 2 ^ 32))) (randn (pyHash text % 2 ^ 32))

/-- Whether a metadata record is skipped by the filters (shared by the keyword
and vector tiers). A filter value only applies when Python-truthy. -/
def filterSkip (filters : Option Filters) (m : MomentMeta) : Bool :=
  match filters with
  | none => false
  | some f =>
    (match f.take_id with
     | some tid => tid != 0 && m.take_id != tid
     | none => false) ||
    (match f.emotion with
     | some e => e != "" && m.emotion_label != e
     | none => false)

/-- The weighted keyword match count of `_keyword_search` for one metadata
record: +5 per term in the transcript, +3 in the emotion label, +2 in the
file name, +4 in the timing pattern, +6 in the laughter marker. -/
def kwMatches (queryTerms : List String) (m : MomentMeta) : Nat :=
  let transcript := pyLower m.transcript_snippet
  let emotion := pyLower m.emotion_label
  let fname := pyLower m.file_name
  let timingPat := pyLower m.timing_data.pattern
  let laughter := if m.audio_features.laughter_detected then "laughter" else ""
  queryTerms.foldl
    (fun acc term =>
      let a1 := if pyIn term transcript then acc + 5 else acc
      let a2 := if pyIn term emotion then a1 + 3 else a1
      let a3 := if pyIn term fname then a2 + 2 else a2
      let a4 := if pyIn term timingPat then a3 + 4 else a3
      if pyIn term laughter then a4 + 6 else a4)
    0

/-- Builds the `SearchResult` for index `i`, metadata `m` and confidence
score `score` (shared by both tiers, which copy the same fields). -/
def mkResult (i : Nat) (m : MomentMeta) (score : ℚ) : SearchResultM :=
  ⟨i, m.take_id, m.moment_id, m.start_time, m.end_time, score,
   m.transcript_snippet, m.emotion_label, m.file_name, m.file_path⟩

/-- The collection loop of `_keyword_search`: walk the metadata in insertion
order, skip filtered records, and emit a result with confidence
`min(0.95, 0.5 + matches*0.1)` whenever the match count is positive (or the
query has no terms). -/
def kwCollect (queryTerms : List String) (filters : Option Filters) :
    Nat → List MomentMeta → List SearchResultM
  | _, [] => []
  | i, m :: rest =>
    if filterSkip filters m then kwCollect queryTerms filters (i + 1) rest
    else if 0 < kwMatches queryTerms m ∨ queryTerms = [] then
      mkResult i m (min 0.95 (0.5 + (kwMatches queryTerms m : ℚ) * 0.1)) ::
        kwCollect queryTerms filters (i + 1) rest
    else kwCollect queryTerms filters (i + 1) rest

/-- Comparison modelling `results.sort(key=lambda x: x.confidence,
reverse=True)` — descending by confidence, stable. -/
def rDescConf (a b : SearchResultM) : Bool := b.confidence ≤ a.confidence

/-- Model of `SemanticSearchService._keyword_search`. -/
def keyword_search (metadata : List MomentMeta) (query : String) (topK : Nat)
    (filters : Option Filters) : List SearchResultM :=
  let queryTerms := pySplitWs (pyLower query)
  (sortS rDescConf (kwCollect queryTerms filters 0 metadata)).take topK

/-- The result-assembly loop of the vector tier of `search_by_intent`
(lines 341-374): walk the `(score, idx)` pairs returned by the index, skip
out-of-range indices and filtered records, copy the raw score into the
confidence field, and stop once `top_k` results are collected (the check runs
after each append). `cnt` is the number of results already collected. -/
def vecCollect (metadata : List MomentMeta) (filters : Option Filters)
    (topK : Nat) : List (ℚ × Int) → Nat → List SearchResultM
  | [], _ => []
  | (score, idx) :: rest, cnt =>
    if idx < 0 ∨ (metadata.length : Int) ≤ idx then
      vecCollect metadata filters topK rest cnt
    else if filterSkip filters (metadata.getD idx.toNat dummyMeta) then
      vecCollect metadata filters topK rest cnt
    else
      let r := mkResult idx.toNat (metadata.getD idx.toNat dummyMeta) score
      if topK ≤ cnt + 1 then [r]
      else r :: vecCollect metadata filters topK rest (cnt + 1)

/-- Model of `SemanticSearchService.search_by_intent`. `faissAvailable`
selects between the FAISS vector tier and the keyword fallback exactly as the
module-level flag does; `embedQuery` abstracts
`intent_embedding_service.embed_query`. -/
def search_by_intent (faissAvailable : Bool) (embedQuery : String → List ℚ)
    (st : ServiceState) (query : String) (topK : Nat)
    (filters : Option Filters) : List SearchResultM :=
  if st.metadata = [] then []
  else if 0 < st.vectors.length ∨ (¬faissAvailable ∧ st.metadata ≠ []) then
    if ¬faissAvailable then keyword_search st.metadata query topK filters
    else
      let qe := embedQuery query
      let k := min (topK * 3) st.vectors.length
      let res := faissIPSearch st.vectors qe k
      vecCollect st.metadata filters topK (List.zip res.1 (res.2.map Int.ofNat)) 0
  else []

/-- The persisted files: `faiss_index.bin` and `faiss_metadata.pkl`.
FAISS serialization and pickling are external round-trip-faithful encodings,
modelled as storing the values themselves. -/
structure StorageFiles where
  indexFile : Option (List (List ℚ))
  metaFile : Option (List MomentMeta)
deriving DecidableEq

/-- Model of `SemanticSearchService.save_index`: writes the FAISS index only
when FAISS is available, and always pickles the metadata. -/
def save_index (faissAvailable : Bool) (st : ServiceState) (fs : StorageFiles) :
    StorageFiles :=
  ⟨if faissAvailable then some st.vectors else fs.indexFile, some st.metadata⟩

/-- Model of `SemanticSearchService._load_or_create_index`: with FAISS and
both files present, load both; else with metadata present, load it alongside
a fresh empty `NumpyIndex`; else create a fresh empty index. -/
def load_or_create_index (faissAvailable : Bool) (fs : StorageFiles) :
    ServiceState :=
  match faissAvailable, fs.indexFile, fs.metaFile with
  | true, some vecs, some meta => ⟨vecs, meta⟩
  | _, _, _ =>
    match fs.metaFile with
    | some meta => ⟨[], meta⟩
    | none => ⟨[], []⟩

/-- The fixed autocomplete pool of `get_suggestions`. -/
def suggestionPool : List String :=
  ["hesitant reaction before answering",
   "tense pause before dialogue",
   "awkward silence after confession",
   "relieved smile after conflict",
   "angry interruption mid-sentence",
   "thoughtful pause while listening",
   "surprised reaction to news",
   "nervous laughter",
   "confident delivery",
   "emotional breakdown",
   "subtle facial reaction",
   "dramatic silence"]

/-- Model of `SemanticSearchService.get_suggestions`: the pool entries that
contain the lower-cased partial query, truncated to the first five. -/
def get_suggestions (q : String) : List String :=
  (suggestionPool.filter fun s => pyIn (pyLower q) (pyLower s)).take 5

/-- One category of the `emotion_map` table in `NLPService.analyze_emotion`. -/
structure EmotionCategory where
  name : String
  keywords : List String
  filename_hints : List String
  object_hints : List String

/-- The `emotion_map` keyword/category table of nlp_service.py, in dict
insertion order. -/
def emotionMap : List EmotionCategory :=
  [⟨"joy",
    ["happy", "wonderful", "great", "excellent", "love", "excited", "wow", "amazing",
     "good", "perfect", "laugh", "funny", "comedy", "smile", "celebrate", "party",
     "cheer", "khush", "mazaa", "sundar", "badhiya", "magizhchi", "super", "brilliant",
     "fantastic", "awesome", "beautiful", "blessed", "grateful", "delighted", "thrilled",
     "joyful", "cheerful", "pleased", "content", "haha", "lol", "rofl", "hilarious",
     "fun", "enjoy", "dance", "music", "play", "game", "birthday", "wedding"],
    ["happy", "joy", "funny", "comedy", "laugh", "celebration", "party", "fun",
     "birthday", "wedding", "dance", "music", "game", "play"],
    ["cake", "balloon", "gift", "sports ball", "teddy bear", "frisbee"]⟩,
   ⟨"sadness",
    ["sad", "terrible", "bad", "unhappy", "cry", "regret", "lost", "broken",
     "sorrow", "miss", "alone", "tear", "grief", "mourn", "depressed", "melancholy",
     "dukh", "dard", "rona", "bekaar", "sogam", "varuththam", "painful", "hurt",
     "lonely", "heartbreak", "loss", "goodbye", "farewell", "sorry", "apologize",
     "unfortunate", "pity", "sympathy", "condolence", "funeral", "death", "die"],
    ["sad", "cry", "emotional", "tragic", "drama", "tears", "grief",
     "goodbye", "farewell", "memory", "memorial"],
    ["umbrella"]⟩,
   ⟨"anger",
    ["angry", "mad", "hate", "furious", "stop", "never", "annoyed", "frustrated",
     "yell", "aggressive", "rage", "fight", "conflict", "argue", "shout", "gussa",
     "naraaz", "kobam", "damn", "hell", "upset", "irritated", "hostile", "violent",
     "attack", "punch", "hit", "destroy", "break", "smash", "explode", "war"],
    ["angry", "rage", "fight", "conflict", "tense", "intense", "action",
     "battle", "war", "attack", "destroy"],
    ["knife", "sword", "gun", "rifle"]⟩,
   ⟨"fear",
    ["scared", "afraid", "danger", "help", "threat", "risk", "panic", "worry",
     "fear", "dark", "compromised", "horror", "terror", "creepy", "haunted",
     "darr", "ghabrahat", "payam", "achcham", "nervous", "anxious", "frightened",
     "terrified", "spooky", "nightmare", "scream", "run", "escape", "hide", "chase"],
    ["scary", "horror", "fear", "dark", "thriller", "suspense", "nervous",
     "creepy", "haunted", "nightmare", "terror"],
    ["knife", "ghost"]⟩,
   ⟨"disgust",
    ["gross", "disgusting", "ew", "hate", "sick", "revolt", "nasty", "vile",
     "appalling", "ghinauna", "yuck", "awful", "terrible", "horrible", "repulsive",
     "dirty", "filthy", "rotten", "stink", "smell", "ugly"],
    ["disgust", "gross", "weird", "strange", "ugly"],
    []⟩,
   ⟨"surprise",
    ["whoa", "surprise", "sudden", "unexpected", "what", "shook", "flash",
     "instant", "achanak", "hairaan", "shock", "omg", "wow", "really", "unbelievable",
     "incredible", "amazing", "astonish", "stun", "speechless", "gasp", "jaw",
     "no way", "seriously", "are you kidding", "twist", "reveal"],
    ["surprise", "shock", "reveal", "twist", "unexpected", "prank", "reaction"],
    ["gift", "box"]⟩,
   ⟨"analytical",
    ["monitor", "system", "data", "analysis", "technical", "calibrate", "status",
     "report", "coordinate", "check", "verify", "screen", "code", "debug", "test",
     "demo", "tutorial", "explain", "overview", "walkthrough", "step", "click",
     "install", "setup", "configure", "setting", "option", "menu", "button"],
    ["screen", "recording", "tutorial", "demo", "tech", "code", "debug",
     "test", "capture", "howto", "guide", "review", "unbox", "setup"],
    ["laptop", "keyboard", "mouse", "monitor", "tv", "cell phone", "remote"]⟩,
   ⟨"thoughtful",
    ["pensive", "contemplating", "considering", "listening", "hmm", "well",
     "think", "thought", "sochna", "vichar", "idea", "shayad", "maybe", "perhaps",
     "wonder", "curious", "interesting", "understand", "learn", "discuss",
     "conversation", "talk", "interview", "question", "answer", "explain", "opinion"],
    ["interview", "talk", "discuss", "conversation", "think", "review",
     "podcast", "meeting", "chat", "vlog", "diary"],
    ["book", "person"]⟩]

/-- Step 1 of `analyze_emotion`: keyword occurrences in the combined
transcript+description text, each keyword capped at 3.0. -/
def kwScore (allText : String) (kws : List String) : ℚ :=
  kws.foldl
    (fun acc kw =>
      let count := pyCount kw allText
      if 0 < count then acc + min ((count : ℚ) * 0.5) 3.0 else acc)
    0

/-- Step 2 of `analyze_emotion`: +2.5 per filename hint found in the (lowered)
filename. -/
def hintScore (fname : String) (hints : List String) : ℚ :=
  hints.foldl (fun acc h => if pyIn h fname then acc + 2.5 else acc) 0

/-- Step 3 of `analyze_emotion`: +1.5 per object hint that is a detected
object or a substring of one. -/
def objScore (objects : List String) (hints : List String) : ℚ :=
  hints.foldl
    (fun acc h =>
      if objects.contains h || objects.any (fun o => pyIn h o) then acc + 1.5 else acc)
    0

/-- Per-category score after steps 1-4 of `analyze_emotion` (keywords,
filename hints, object hints, and the +4.0 screen-recording special case for
the analytical category). Arguments are already lower-cased. -/
def catScorePre (text fname desc : String) (objects : List String)
    (cat : EmotionCategory) : ℚ :=
  kwScore (text ++ " " ++ desc) cat.keywords
    + hintScore fname cat.filename_hints
    + objScore objects cat.object_hints
    + (if cat.name == "analytical"
          && (pyIn "screen" fname || pyIn "recording" fname || pyIn "capture" fname)
       then 4.0 else 0)

/-- The score table after steps 1-4, in `emotion_map` insertion order. -/
def scoresPre (text fname desc : String) (objects : List String) :
    List (String × ℚ) :=
  emotionMap.map fun cat => (cat.name, catScorePre text fname desc objects cat)

/-- Model of Python `max` over the values of a score table. -/
def maxVals : List (String × ℚ) → ℚ
  | [] => 0
  | p :: rest => rest.foldl (fun m q => max m q.2) p.2

/-- The final score table of `analyze_emotion` (step 5 adds +1.5 to
thoughtful when a person is detected and no score reached 1.0). -/
def scoresFinal (text fname desc : String) (objects : List String) :
    List (String × ℚ) :=
  let pre := scoresPre text fname desc objects
  if objects.contains "person" && decide (maxVals pre < 1.0) then
    pre.map fun p => if p.1 = "thoughtful" then (p.1, p.2 + 1.5) else p
  else pre

/-- Model of `max(scores, key=scores.get)` paired with its value: the first
entry attaining the maximum, in insertion order. -/
def argmaxPair : List (String × ℚ) → String × ℚ
  | [] => ("", 0)
  | p :: rest => rest.foldl (fun best q => if q.2 > best.2 then q else best) p

/-- Sum of the values of a score table. -/
def sumVals (l : List (String × ℚ)) : ℚ := (l.map (·.2)).sum

/-- The normalized score distribution of `analyze_emotion`: each score
divided by the total and rounded to 3 digits, or all zeros when the total is
not positive. -/
def normalizedScores (l : List (String × ℚ)) : List (String × ℚ) :=
  if 0 < sumVals l then l.map fun p => (p.1, round3 (p.2 / sumVals l))
  else l.map fun p => (p.1, 0)

/-- Dictionary lookup with default 0 (model of `d.get(k, 0)`). -/
def lookupVal (l : List (String × ℚ)) (k : String) : ℚ :=
  match l.find? (fun p => p.1 == k) with
  | some p => p.2
  | none => 0

/-- Comparison for descending-by-score stable ordering on labelled scores
(model of `sorted(scores.items(), key=..., reverse=True)`). -/
def rDescScore (a b : String × ℚ) : Bool := b.2 ≤ a.2

/-- The `detected_emotions` list of `analyze_emotion`: categories sorted by
descending raw score whose normalized share reaches the 0.15 threshold, each
paired with its normalized confidence. -/
def detectedEmotions (scores normd : List (String × ℚ)) : List (String × ℚ) :=
  ((sortS rDescScore scores).filter fun p => 0.15 ≤ lookupVal normd p.1).map
    fun p => (p.1, lookupVal normd p.1)

/-- The fallback rotation of `analyze_emotion` for an all-zero score table. -/
def fallbackPool : List String := ["thoughtful", "analytical", "neutral"]

/-- The deterministic fallback label: the rotation entry selected by the
character-code sum of the (lowered) filename, with neutral mapped to
thoughtful. Depends on the filename alone. -/
def fallbackLabel (fname : String) : String :=
  let p := fallbackPool.getD (sumOrd fname % fallbackPool.length) "thoughtful"
  if p = "neutral" then "thoughtful" else p

/-- The return value of `NLPService.analyze_emotion`. -/
structure EmotionResult where
  emotion : String
  intensity : ℚ
  scores : List (String × ℚ)
  detected_emotions : List (String × ℚ)
deriving DecidableEq

/-- Model of `NLPService.analyze_emotion` (nlp_service.py lines 69-228). -/
def analyze_emotion (transcript filename video_description : String)
    (detected_objects : List String) : EmotionResult :=
  let text := pyLower transcript
  let fname := pyLower filename
  let desc := pyLower video_description
  let objects := detected_objects.map pyLower
  let scores := scoresFinal text fname desc objects
  let normd := normalizedScores scores
  let dom := argmaxPair scores
  let detected := detectedEmotions scores normd
  if detected = [] ∧ dom.2 = 0 then
    ⟨fallbackLabel fname, 0.3, scores, [(fallbackLabel fname, 0.3)]⟩
  else
    ⟨dom.1, min 1.0 (dom.2 / 5.0), scores, detected⟩

/-- External CV analyzer output fields consumed by the fusion stage. -/
structure CVData where
  video_description : String
  objects : List String
  energy_level : String
  complexity : String
deriving DecidableEq

/-- External audio analyzer behavioural markers consumed by the fusion
stage. -/
structure BehavioralMarkers where
  laughter_detected : Bool
  hesitation_duration : ℚ
deriving DecidableEq

/-- Audio contribution of `_run_intent_indexing` (30%). -/
def audioEmotionOf (b : BehavioralMarkers) : String :=
  if b.laughter_detected then "joy"
  else if 1.2 < b.hesitation_duration then "thoughtful"
  else "neutral"

/-- Energy/complexity part of the visual contribution. -/
def visualEmotionBase (cv : CVData) : String :=
  if cv.energy_level == "high-intensity" then
    if cv.complexity == "intricate" then "surprise" else "anger"
  else if cv.energy_level == "dynamic" then "joy"
  else if cv.complexity == "intricate" then "thoughtful"
  else "neutral"

/-- Visual contribution of `_run_intent_indexing`, including the
filename-substring overrides. -/
def visualEmotionOf (fileName : String) (cv : CVData) : String :=
  let fl := pyLower fileName
  if pyIn "screen" fl || pyIn "recording" fl || pyIn "capture" fl then "analytical"
  else if pyIn "funny" fl || pyIn "comedy" fl || pyIn "laugh" fl then "joy"
  else if pyIn "sad" fl || pyIn "emotional" fl || pyIn "drama" fl then "sadness"
  else if pyIn "action" fl || pyIn "tense" fl || pyIn "fight" fl then "anger"
  else if pyIn "horror" fl || pyIn "scary" fl || pyIn "dark" fl then "fear"
  else visualEmotionBase cv

/-- Keys of the `emotion_weights` dict of `_run_intent_indexing`, in
insertion order. -/
def weightKeys : List String :=
  ["joy", "sadness", "anger", "fear", "disgust", "surprise", "neutral",
   "analytical", "thoughtful"]

/-- The zero-initialized `emotion_weights` table. -/
def initWeights : List (String × ℚ) := weightKeys.map fun k => (k, 0)

/-- Add `d` to the entry of key `k` (model of `w[k] += d`). -/
def addW (l : List (String × ℚ)) (k : String) (d : ℚ) : List (String × ℚ) :=
  l.map fun p => if p.1 = k then (p.1, p.2 + d) else p

/-- Guarded add (model of `if k in w: w[k] += d`). -/
def addWIfMem (l : List (String × ℚ)) (k : String) (d : ℚ) : List (String × ℚ) :=
  if l.any (fun p => p.1 == k) then addW l k d else l

/-- The fused `emotion_weights` table of `_run_intent_indexing`: NLP scores
scaled by 0.4, +0.2 for the winning NLP emotion, +0.3 for the audio
contribution, +0.3 for the visual contribution. -/
def fuseWeights (fileName transcript : String) (cv : CVData)
    (b : BehavioralMarkers) : List (String × ℚ) :=
  let nlpRes := analyze_emotion transcript fileName cv.video_description cv.objects
  let w1 := nlpRes.scores.foldl (fun w p => addWIfMem w p.1 (p.2 * 0.4)) initWeights
  let w2 := addWIfMem w1 nlpRes.emotion 0.2
  let w3 := addWIfMem w2 (audioEmotionOf b) 0.3
  addWIfMem w3 (visualEmotionOf fileName cv) 0.3

/-- The six-entry variety rotation of the zero-weight safety
branch of the orchestrator. -/
def varietyPool6 : List String :=
  ["thoughtful", "joy", "analytical", "surprise", "sadness", "anger"]

/-- Model of the final fused emotion label of `_run_intent_indexing`: argmax
of the weight table, or — when every weight is zero — a rotation entry keyed
by filename hash plus take id. -/
def fuseEmotionLabel (takeId : Nat) (fileName transcript : String)
    (cv : CVData) (b : BehavioralMarkers) : String :=
  let w := fuseWeights fileName transcript cv b
  let label := (argmaxPair w).1
  if sumVals w = 0 then
    varietyPool6.getD ((sumOrd fileName + takeId) % varietyPool6.length) "thoughtful"
  else label

/-- Top-level audio dict fields read by `_build_intent_description` via
`.get`. In the orchestrator path the full audio analyzer dict is passed,
whose top level carries neither `laughter_detected` nor `speech_rate` (both
live under `behavioral_markers`), so both `.get` calls yield their
defaults. -/
structure EmbedAudioFeats where
  laughter_detected : Bool
  speech_rate : Option String
deriving DecidableEq

/-- Model of `IntentEmbeddingService._build_intent_description`. -/
def buildIntentDescription (transcript : String)
    (emotionData : Option (String × Int)) (audioFeats : Option EmbedAudioFeats)
    (timingPattern : String) : String :=
  let p1 :=
    if pyStrip transcript ≠ "" then "Dialogue: " ++ pyStrip transcript
    else "No dialogue, silent moment"
  let parts1 := [p1]
  let parts2 :=
    match emotionData with
    | some ei =>
      parts1 ++ ["Emotion: " ++ ei.1 ++ " (intensity " ++ toString ei.2 ++ "%)"]
    | none => parts1
  let parts3 :=
    match audioFeats with
    | some af =>
      let pa :=
        if af.laughter_detected then parts2 ++ ["Laughter detected during this moment"]
        else parts2
      match af.speech_rate with
      | some r => if r ≠ "" then pa ++ ["Speech rate: " ++ r] else pa
      | none => pa
    | none => parts2
  let parts4 :=
    if timingPattern ≠ "" then
      parts3 ++ ["Timing: " ++ timingPattern.replace "_" " "]
    else parts3
  String.intercalate ". " parts4

/-- The intent description built by `_run_intent_indexing` for one take: the
truncated transcript, the fused label at intensity 60, the audio dict (with
no top-level laughter/speech-rate keys) and the hesitancy timing pattern. -/
def takeIntentDescription (takeId : Nat) (fileName transcript : String)
    (cv : CVData) (b : BehavioralMarkers) : String :=
  let label := fuseEmotionLabel takeId fileName transcript cv b
  let timing := if 1 < b.hesitation_duration then "hesitant" else "normal"
  buildIntentDescription (if transcript ≠ "" then pyTake 200 transcript else "")
    (some (label, 60)) (some ⟨false, none⟩) timing

/-- The embedding generated for one take; `embedFn` abstracts the embedding
backend (the real sentence-transformer or the seeded mock generator), either
of which is a function of the description text alone. -/
def takeEmbedding (embedFn : String → List ℚ) (takeId : Nat)
    (fileName transcript : String) (cv : CVData) (b : BehavioralMarkers) :
    List ℚ :=
  embedFn (takeIntentDescription takeId fileName transcript cv b)

/-- The abbreviation table of `QueryExpansionService` (abbreviation to
expansions, bidirectional lookup built below). -/
def abbreviations : List (String × List String) :=
  [("fir", ["first information report", "first incident report", "police report", "complaint"]),
   ("cctv", ["closed circuit television", "security camera", "surveillance", "camera footage"]),
   ("rto", ["regional transport office", "vehicle registration", "transport office"]),
   ("dmv", ["department of motor vehicles", "motor vehicles", "vehicle registration"]),
   ("ui", ["user interface", "interface", "screen", "display"]),
   ("ux", ["user experience", "experience", "usability"]),
   ("api", ["application programming interface", "interface", "endpoint"]),
   ("db", ["database", "data storage", "storage"]),
   ("ai", ["artificial intelligence", "machine learning", "neural", "intelligent"]),
   ("ml", ["machine learning", "learning", "model", "training"]),
   ("hd", ["high definition", "1080p", "high quality", "hq"]),
   ("4k", ["ultra hd", "uhd", "2160p", "ultra high definition"]),
   ("fps", ["frames per second", "frame rate", "framerate"]),
   ("vfx", ["visual effects", "effects", "cgi", "special effects"]),
   ("sfx", ["sound effects", "audio effects", "effects"]),
   ("asap", ["as soon as possible", "urgent", "immediately", "quickly"]),
   ("etc", ["et cetera", "and so on", "and more"]),
   ("vs", ["versus", "against", "compared to", "vs"]),
   ("info", ["information", "details", "data"]),
   ("pic", ["picture", "photo", "image", "photograph"]),
   ("vid", ["video", "clip", "footage", "recording"])]

/-- The synonym groups of `QueryExpansionService` (closed groups of
interchangeable terms). -/
def synonymGroups : List (List String) :=
  [["happy", "joyful", "cheerful", "delighted", "pleased", "glad", "content", "elated"],
   ["sad", "unhappy", "sorrowful", "melancholy", "depressed", "gloomy", "dejected"],
   ["angry", "furious", "enraged", "irate", "mad", "upset", "annoyed", "irritated"],
   ["scared", "afraid", "frightened", "terrified", "fearful", "nervous", "anxious"],
   ["surprised", "shocked", "amazed", "astonished", "startled", "stunned"],
   ["walk", "walking", "stroll", "stride", "pace", "march"],
   ["run", "running", "sprint", "dash", "jog", "rush"],
   ["talk", "talking", "speak", "speaking", "chat", "converse", "discuss"],
   ["fight", "fighting", "battle", "combat", "conflict", "brawl", "scuffle"],
   ["indoor", "inside", "interior", "indoors"],
   ["outdoor", "outside", "exterior", "outdoors", "open air"],
   ["night", "nighttime", "dark", "evening", "nocturnal"],
   ["day", "daytime", "daylight", "morning", "afternoon"],
   ["person", "people", "individual", "human", "someone", "somebody"],
   ["man", "male", "guy", "gentleman", "fellow"],
   ["woman", "female", "lady", "girl"],
   ["child", "kid", "children", "kids", "minor", "youth"],
   ["car", "vehicle", "automobile", "auto", "motor vehicle"],
   ["phone", "mobile", "cellphone", "cell phone", "smartphone", "telephone"],
   ["computer", "laptop", "pc", "desktop", "workstation"],
   ["report", "document", "file", "record", "documentation"],
   ["incident", "event", "occurrence", "happening", "situation"],
   ["complaint", "grievance", "issue", "problem", "concern"],
   ["clear", "crisp", "sharp", "high quality", "hd"],
   ["blurry", "fuzzy", "unclear", "out of focus", "hazy"],
   ["loud", "noisy", "high volume", "audible"],
   ["quiet", "silent", "muted", "soft", "low volume"]]

/-- The synonym-map lookup `_synonym_map[w]`: the union of every group
containing `w` (empty when `w` is not a key). -/
def synonymsOf (w : String) : List String :=
  (synonymGroups.filter fun g => g.contains w).flatten

/-- The bidirectional abbreviation-map lookup `_abbr_expanded[w]`: for an
abbreviation key, its expansions plus itself; for a (lowered) expansion key,
the abbreviation plus the expansion itself. Empty when `w` is not a key. -/
def abbrExpansionsOf (w : String) : List String :=
  ((abbreviations.filter fun e => e.1 == w).map fun e => e.2 ++ [e.1]).flatten
    ++ ((abbreviations.filter fun e => (e.2.map pyLower).contains w).map
        fun e => [e.1, w]).flatten

/-- The return value of `expand_query` (set fields modelled as lists with
membership semantics; the prose reasoning lines are not modelled). -/
structure ExpansionResult where
  original : String
  expanded_terms : List String
  query_words : List String
deriving DecidableEq

/-- Model of `QueryExpansionService.expand_query`: the word tokens of the
lowered query, plus abbreviation and synonym lookups per token, plus
phrase-level matches of multi-word expansions against the raw query. -/
def expand_query (query : String) : ExpansionResult :=
  let original := pyStrip query
  let queryLower := pyLower original
  let words := pyFindWords queryLower
  let fromWords :=
    words.foldl
      (fun acc w =>
        let acc1 := if abbrExpansionsOf w ≠ [] then acc ++ abbrExpansionsOf w else acc
        if synonymsOf w ≠ [] then acc1 ++ synonymsOf w else acc1)
      words
  let withPhrases :=
    abbreviations.foldl
      (fun acc e =>
        e.2.foldl
          (fun acc2 ex =>
            if pyIn (pyLower ex) queryLower then acc2 ++ [e.1, pyLower ex] else acc2)
          acc)
      fromWords
  ⟨original, withPhrases, words⟩

theorem le_foldl_of_step (step : ℚ → α → ℚ) (h : ∀ acc a, acc ≤ step acc a) :
    ∀ (l : List α) (init : ℚ), init ≤ l.foldl step init := by
  intro l
  induction l with
  | nil => intro init; simp
  | cons a rest ih =>
    intro init
    exact le_trans (h init a) (ih (step init a))

theorem mem_foldl_of_mem (step : List β → α → List β)
    (h : ∀ acc a x, x ∈ acc → x ∈ step acc a) :
    ∀ (l : List α) (acc : List β) (x : β), x ∈ acc → x ∈ l.foldl step acc := by
  intro l
  induction l with
  | nil => intro acc x hx; simpa using hx
  | cons a rest ih => intro acc x hx; exact ih (step acc a) x (h acc a x hx)

/-- C1: starting from a fresh index, after any sequence of `index_moment`
calls the number of stored vectors equals the length of the parallel
metadata list (`index.ntotal == len(metadata)`). -/
theorem C1_index_metadata_parallel (norm : List ℚ → ℚ)
    (calls : List (List ℚ × MomentMeta)) :
    (applyIndexMoments norm freshState calls).vectors.length =
      (applyIndexMoments norm freshState calls).metadata.length := by
  suffices h : ∀ st : ServiceState, st.vectors.length = st.metadata.length →
      (applyIndexMoments norm st calls).vectors.length =
        (applyIndexMoments norm st calls).metadata.length from h freshState rfl
  induction calls with
  | nil => intro st h; simpa [applyIndexMoments] using h
  | cons c rest ih =>
    intro st h
    have hstep : (index_moment norm st c.1 c.2).vectors.length =
        (index_moment norm st c.1 c.2).metadata.length := by
      simp [index_moment, h]
    have := ih (index_moment norm st c.1 c.2) hstep
    simpa [applyIndexMoments, List.foldl_cons] using this

/-- C8: searching an empty corpus is not an error: whatever the query,
`top_k`, filters, backend availability and vector store, `search_by_intent`
on a state with no indexed moments returns the empty list. -/
theorem C8_empty_corpus_returns_nil (faissAvailable : Bool)
    (embedQuery : String → List ℚ) (st : ServiceState) (query : String)
    (topK : Nat) (filters : Option Filters) (h : st.metadata = []) :
    search_by_intent faissAvailable embedQuery st query topK filters = [] := by
  simp [search_by_intent, h]

theorem C8_witness :
    freshState.metadata = [] ∧
      search_by_intent true (fun _ => []) freshState "anything" 10 none = [] :=
  ⟨rfl, C8_empty_corpus_returns_nil true (fun _ => []) freshState "anything" 10 none rfl⟩

/-- C9: for every non-empty query, the expanded term set of `expand_query`
contains every lower-cased word token of the query — expansion never drops
the original query terms. -/
theorem C9_expansion_keeps_query_tokens (q : String) (hq : q ≠ "") :
    ∀ t ∈ (expand_query q).query_words, t ∈ (expand_query q).expanded_terms := by
  intro t ht
  simp only [expand_query] at ht ⊢
  apply mem_foldl_of_mem
  · intro acc e x hx
    apply mem_foldl_of_mem
    · intro acc2 ex x2 hx2
      by_cases h : pyIn (pyLower ex) (pyLower (pyStrip q)) = true
      · simp only [h, if_true]
        exact List.mem_append_left _ hx2
      · simp only [h, if_false]
        exact hx2
    · exact hx
  · apply mem_foldl_of_mem
    · intro acc w x hx
      have hx1 : x ∈ if abbrExpansionsOf w ≠ [] then acc ++ abbrExpansionsOf w else acc := by
        by_cases h : abbrExpansionsOf w = []
        · simp [h, hx]
        · simp only [h, ne_eq, not_false_iff, if_true]
          exact List.mem_append_left _ hx
      by_cases h2 : synonymsOf w = []
      · simpa [h2] using hx1
      · simp only [h2, ne_eq, not_false_iff, if_true]
        exact List.mem_append_left _ hx1
    · exact ht

theorem C9_witness :
    "FIR" ≠ "" ∧ "fir" ∈ (expand_query "FIR").expanded_terms :=
  ⟨by decide, C9_expansion_keeps_query_tokens "FIR" (by decide) "fir" (by decide)⟩

/-- C10: `get_suggestions` returns at most five strings, each drawn from the
fixed pool and containing the lower-cased partial query as a substring, and
the empty partial query returns the first five pool entries. -/
theorem C10_suggestions_shape (pq : String) :
    (get_suggestions pq).length ≤ 5 ∧
      (∀ s ∈ get_suggestions pq,
        s ∈ suggestionPool ∧ pyIn (pyLower pq) (pyLower s) = true) ∧
      get_suggestions "" = suggestionPool.take 5 := by
  refine ⟨?_, ?_, ?_⟩
  · simp only [get_suggestions]
    rw [List.length_take]
    exact min_le_left _ _
  · intro s hs
    have hs2 := List.mem_of_mem_take hs
    exact ⟨(List.mem_filter.mp hs2).1, (List.mem_filter.mp hs2).2⟩
  · decide

theorem C10_witness :
    "nervous laughter" ∈ get_suggestions "nervous" ∧
      "nervous laughter" ∈ suggestionPool ∧
      pyIn (pyLower "nervous") (pyLower "nervous laughter") = true :=
  ⟨by decide, (C10_suggestions_shape "nervous").2.1 "nervous laughter" (by decide)⟩

/-- C5 counterexample: with the FAISS backend unavailable, one `index_moment`
on a fresh index followed by `save_index` and a reload yields an index whose
vector count is 0 while the metadata count is 1 — the persisted index does
not reproduce the vector count, refuting the claim as stated. -/
theorem C5_counterexample :
    (load_or_create_index false (save_index false
        (index_moment (fun _ => 1) freshState [1] dummyMeta) ⟨none, none⟩)).vectors.length = 0 ∧
      (index_moment (fun _ => 1) freshState [1] dummyMeta).vectors.length = 1 ∧
      (load_or_create_index false (save_index false
        (index_moment (fun _ => 1) freshState [1] dummyMeta) ⟨none, none⟩)).metadata.length = 1 := by
  decide

/-- C5 amended: with FAISS available, `save_index` then
`_load_or_create_index` reproduces the index state exactly (hence identical
count and ranking); without FAISS, the reload preserves the metadata but
recreates an empty vector store, and the search ranking is nevertheless
unchanged because the non-FAISS path ranks by keyword search over metadata
alone. -/
theorem C5_roundtrip_amended (st : ServiceState) (fs : StorageFiles)
    (embedQuery : String → List ℚ) (query : String) (topK : Nat)
    (filters : Option Filters) :
    load_or_create_index true (save_index true st fs) = st ∧
      (load_or_create_index false (save_index false st fs)).metadata = st.metadata ∧
      (load_or_create_index false (save_index false st fs)).vectors = [] ∧
      search_by_intent false embedQuery
          (load_or_create_index false (save_index false st fs)) query topK filters =
        search_by_intent false embedQuery st query topK filters := by
  refine ⟨rfl, rfl, rfl, ?_⟩
  by_cases hm : st.metadata = []
  · simp [search_by_intent, load_or_create_index, save_index, hm]
  · simp [search_by_intent, load_or_create_index, save_index, hm]

/-- C2: the mock embedding path produces a unit vector (whenever the seeded
raw vector is nonzero, i.e. its norm is positive), and the vector stored by
`index_moment` for such an embedding is again a unit vector. The `norm`
argument abstracts `np.linalg.norm` and is pinned to the L2 norm by the
square hypotheses; the real-model path delegates to the external encoder
with `normalize_embeddings=True`. -/
theorem C2_unit_norm (pyHash : String → Nat) (randn : Nat → List ℚ)
    (norm : List ℚ → ℚ) (text : String)
    (h1 : norm (randn (pyHash text % 2 ^ 32)) ^ 2 = sumSq (randn (pyHash text % 2 ^ 32)))
    (h2 : 0 < norm (randn (pyHash text % 2 ^ 32)))
    (h3 : norm (mockEmbedding pyHash randn norm text) ^ 2 =
        sumSq (mockEmbedding pyHash randn norm text))
    (h4 : 0 ≤ norm (mockEmbedding pyHash randn norm text)) :
    sumSq (mockEmbedding pyHash randn norm text) = 1 ∧
      sumSq (storedVector norm (mockEmbedding pyHash randn norm text)) = 1 := by
  have hcne : norm (randn (pyHash text % 2 ^ 32)) ≠ 0 := ne_of_gt h2
  have hunit : sumSq (mockEmbedding pyHash randn norm text) = 1 := by
    simp only [mockEmbedding]
    rw [sumSq_normalizeBy _ _ hcne, ← h1]
    exact div_self (pow_ne_zero 2 hcne)
  refine ⟨hunit, ?_⟩
  have hsq : norm (mockEmbedding pyHash randn norm text) ^ 2 = 1 := by rw [h3, hunit]
  have hnu : norm (mockEmbedding pyHash randn norm text) = 1 := by
    have hfac : (norm (mockEmbedding pyHash randn norm text) - 1) *
        (norm (mockEmbedding pyHash randn norm text) + 1) = 0 := by
      have hexp : (norm (mockEmbedding pyHash randn norm text) - 1) *
          (norm (mockEmbedding pyHash randn norm text) + 1) =
          norm (mockEmbedding pyHash randn norm text) ^ 2 - 1 := by ring
      rw [hexp, hsq]; ring
    rcases mul_eq_zero.mp hfac with h | h
    · linarith
    · linarith
  rw [storedVector, hnu]
  rw [if_pos (by norm_num : (0 : ℚ) < 1)]
  rw [sumSq_normalizeBy _ _ (by norm_num : (1 : ℚ) ≠ 0), hunit]
  norm_num

/-- Concrete norm callback for the C2 witness (the L2 norm of the two vectors
actually reached). -/
def c2NormFn : List ℚ → ℚ :=
  fun v => if v = [3, 4] then 5 else if v = [3 / 5, 4 / 5] then 1 else 0

theorem C2_witness :
    sumSq (mockEmbedding (fun _ => 0) (fun _ => [3, 4]) c2NormFn "d") = 1 ∧
      sumSq (storedVector c2NormFn
        (mockEmbedding (fun _ => 0) (fun _ => [3, 4]) c2NormFn "d")) = 1 :=
  C2_unit_norm (fun _ => 0) (fun _ => [3, 4]) c2NormFn "d"
    (by norm_num [c2NormFn, sumSq])
    (by norm_num [c2NormFn])
    (by norm_num [c2NormFn, mockEmbedding, normalizeBy, sumSq])
    (by norm_num [c2NormFn, mockEmbedding, normalizeBy])

theorem kwCollect_id_lower (terms : List String) (filters : Option Filters) :
    ∀ (ms : List MomentMeta) (i : Nat), ∀ r ∈ kwCollect terms filters i ms,
      i ≤ r.result_id := by
  intro ms
  induction ms with
  | nil => intro i r hr; simp [kwCollect] at hr
  | cons m rest ih =>
    intro i r hr
    simp only [kwCollect] at hr
    split at hr
    · have := ih (i + 1) r hr; omega
    · split at hr
      · rcases List.mem_cons.mp hr with rfl | hr
        · simp [mkResult]
        · have := ih (i + 1) r hr; omega
      · have := ih (i + 1) r hr; omega

theorem kwCollect_pairwise (terms : List String) (filters : Option Filters) :
    ∀ (ms : List MomentMeta) (i : Nat),
      (kwCollect terms filters i ms).Pairwise fun a b => a.result_id < b.result_id := by
  intro ms
  induction ms with
  | nil => intro i; simp [kwCollect]
  | cons m rest ih =>
    intro i
    simp only [kwCollect]
    split
    · exact ih (i + 1)
    · split
      · refine List.pairwise_cons.mpr ⟨?_, ih (i + 1)⟩
        intro r hr
        have := kwCollect_id_lower terms filters rest (i + 1) r hr
        simp only [mkResult]
        omega
      · exact ih (i + 1)

theorem kwCollect_conf_bounds (terms : List String) (filters : Option Filters) :
    ∀ (ms : List MomentMeta) (i : Nat), ∀ r ∈ kwCollect terms filters i ms,
      0.5 ≤ r.confidence ∧ r.confidence ≤ 0.95 := by
  intro ms
  induction ms with
  | nil => intro i r hr; simp [kwCollect] at hr
  | cons m rest ih =>
    intro i r hr
    simp only [kwCollect] at hr
    split at hr
    · exact ih (i + 1) r hr
    · split at hr
      · rcases List.mem_cons.mp hr with rfl | hr
        · constructor
          · simp only [mkResult]
            refine le_min (by norm_num) ?_
            have : (0 : ℚ) ≤ (kwMatches terms m : ℚ) * 0.1 := by positivity
            linarith
          · simp only [mkResult]
            exact min_le_left _ _
        · exact ih (i + 1) r hr
      · exact ih (i + 1) r hr

theorem keyword_search_mem_bounds (metadata : List MomentMeta) (query : String)
    (topK : Nat) (filters : Option Filters) :
    ∀ r ∈ keyword_search metadata query topK filters,
      0.5 ≤ r.confidence ∧ r.confidence ≤ 0.95 := by
  intro r hr
  simp only [keyword_search] at hr
  have hr2 := List.mem_of_mem_take hr
  have hr3 := (mem_sortS _ _ _).mp hr2
  exact kwCollect_conf_bounds _ _ _ _ r hr3

theorem vecCollect_conf_raw (metadata : List MomentMeta)
    (filters : Option Filters) (topK : Nat) :
    ∀ (pairs : List (ℚ × Int)) (cnt : Nat),
      ∀ r ∈ vecCollect metadata filters topK pairs cnt,
        ∃ p ∈ pairs, r.confidence = p.1 := by
  intro pairs
  induction pairs with
  | nil => intro cnt r hr; simp [vecCollect] at hr
  | cons p rest ih =>
    obtain ⟨score, idx⟩ := p
    intro cnt r hr
    simp only [vecCollect] at hr
    split at hr
    · rcases ih cnt r hr with ⟨p, hp, he⟩
      exact ⟨p, List.mem_cons_of_mem _ hp, he⟩
    · split at hr
      · rcases ih cnt r hr with ⟨p, hp, he⟩
        exact ⟨p, List.mem_cons_of_mem _ hp, he⟩
      · split at hr
        · rcases List.mem_singleton.mp hr with rfl
          exact ⟨(score, idx), List.mem_cons_self _ _, rfl⟩
        · rcases List.mem_cons.mp hr with rfl | hr
          · exact ⟨(score, idx), List.mem_cons_self _ _, rfl⟩
          · rcases ih (cnt + 1) r hr with ⟨p, hp, he⟩
            exact ⟨p, List.mem_cons_of_mem _ hp, he⟩

/-- C6 amended: in the keyword tier the confidence exposed to the caller is
the match score rescaled into the bounded range [0.5, 0.95]; in the vector
tier, however, the confidence field is the raw index score copied through
unchanged (only the prose reasoning carries a rescaled percentage). -/
theorem C6_confidence_amended (metadata : List MomentMeta) (query : String)
    (topK : Nat) (filters : Option Filters) (pairs : List (ℚ × Int)) (cnt : Nat) :
    (∀ r ∈ keyword_search metadata query topK filters,
        0.5 ≤ r.confidence ∧ r.confidence ≤ 0.95) ∧
      (∀ r ∈ vecCollect metadata filters topK pairs cnt,
        ∃ p ∈ pairs, r.confidence = p.1) :=
  ⟨keyword_search_mem_bounds metadata query topK filters,
   vecCollect_conf_raw metadata filters topK pairs cnt⟩

/-- C6 counterexample: with FAISS available and one stored vector opposite to
the query embedding, `search_by_intent` exposes confidence -1 — exactly the
raw inner-product score of the index, negative and outside any rescaled
bounded confidence range, refuting "never the raw unnormalized index
score". -/
theorem C6_counterexample :
    (search_by_intent true (fun _ => [1]) ⟨[[-1]], [dummyMeta]⟩ "q" 5 none).map
        (fun r => r.confidence) = [-1] ∧
      dotProd [1] [-1] = -1 ∧ ((-1 : ℚ) < 0) := by
  have hd : dotProd [1] ([-1] : List ℚ) = -1 := by norm_num [dotProd]
  refine ⟨?_, hd, by norm_num⟩
  have hstep : search_by_intent true (fun _ => [1]) ⟨[[-1]], [dummyMeta]⟩ "q" 5 none
      = [mkResult 0 dummyMeta (dotProd [1] [-1])] := by
    simp +decide [search_by_intent, faissIPSearch, withIdxFrom, sortS, insertS,
      npTailSlice, vecCollect, filterSkip, mkResult]
  rw [hstep]
  simp [hd, mkResult]

/-- Metadata record whose transcript matches the witness query. -/
def kwMeta : MomentMeta :=
  ⟨0, 0, 0, 0, "hello world", "neutral", "", "", ⟨false, 0, 0⟩, ⟨"", 0⟩⟩

theorem C6_witness :
    (0.5 ≤ (mkResult 0 kwMeta 0.95).confidence ∧
        (mkResult 0 kwMeta 0.95).confidence ≤ 0.95) ∧
      ∃ p ∈ [((-1 : ℚ), (0 : Int))], (mkResult 0 kwMeta (-1)).confidence = p.1 := by
  have hkw : keyword_search [kwMeta] "hello" 10 none = [mkResult 0 kwMeta 0.95] := by
    have hterms : pySplitWs (pyLower "hello") = ["hello"] := by decide
    have hm : kwMatches ["hello"] kwMeta = 5 := by decide
    have hconf : min (0.95 : ℚ) (0.5 + 5 * 0.1) = 0.95 := by
      rw [min_def]
      norm_num
    simp +decide [keyword_search, hterms, kwCollect, hm, sortS, insertS, filterSkip]
    rw [hconf]
  have hvc : vecCollect [kwMeta] none 10 [(-1, 0)] 0 = [mkResult 0 kwMeta (-1)] := by
    simp +decide [vecCollect, filterSkip, mkResult]
  exact ⟨(C6_confidence_amended [kwMeta] "hello" 10 none [(-1, 0)] 0).1
            (mkResult 0 kwMeta 0.95) (by rw [hkw]; exact List.mem_singleton_self _),
         (C6_confidence_amended [kwMeta] "hello" 10 none [(-1, 0)] 0).2
            (mkResult 0 kwMeta (-1)) (by rw [hvc]; exact List.mem_singleton_self _)⟩

theorem keyword_search_pairwise (metadata : List MomentMeta) (query : String)
    (topK : Nat) (filters : Option Filters) :
    (keyword_search metadata query topK filters).Pairwise fun r1 r2 =>
      r2.confidence < r1.confidence ∨
        (r1.confidence = r2.confidence ∧ r1.result_id < r2.result_id) := by
  have hs := pairwise_sortS (fun r => -r.confidence) (fun r => r.result_id) rDescConf
    (by intro a b; simp [rDescConf])
    (kwCollect (pySplitWs (pyLower query)) filters 0 metadata)
    (kwCollect_pairwise _ _ _ _)
  unfold keyword_search
  refine List.Pairwise.sublist (List.take_sublist _ _) (hs.imp ?_)
  intro a b hab
  dsimp only at hab ⊢
  rcases hab with h1 | ⟨h1, h2⟩
  · exact Or.inl (by linarith)
  · exact Or.inr ⟨by linarith, h2⟩

theorem faissIPSearch_pairwise (vectors : List (List ℚ)) (q : List ℚ) (k : Nat) :
    (List.zip (faissIPSearch vectors q k).1 (faissIPSearch vectors q k).2).Pairwise
      fun a b => b.1 < a.1 ∨ (a.1 = b.1 ∧ a.2 < b.2) := by
  simp only [faissIPSearch]
  rw [List.zip_map', List.pairwise_map]
  have hs := pairwise_sortS (fun p : Nat × ℚ => -p.2) (fun p => p.1) rDescSnd
    (by intro a b; simp [rDescSnd])
    (withIdxFrom 0 (vectors.map (dotProd q))) (withIdxFrom_pairwise _ 0)
  refine List.Pairwise.sublist (List.take_sublist _ _) (hs.imp ?_)
  intro a b hab
  dsimp only at hab ⊢
  rcases hab with h1 | ⟨h1, h2⟩
  · exact Or.inl (by linarith)
  · exact Or.inr ⟨by linarith, h2⟩

theorem numpyIndexSearch_pairwise (vectors : List (List ℚ)) (q : List ℚ) (k : Nat) :
    (List.zip (numpyIndexSearch vectors q k).1 (numpyIndexSearch vectors q k).2).Pairwise
      fun a b => b.1 < a.1 ∨ (a.1 = b.1 ∧ b.2 < a.2) := by
  by_cases hv : vectors.length = 0
  · simp [numpyIndexSearch, hv]
  · simp only [numpyIndexSearch, hv, if_false, npArgsortAsc]
    set scores := vectors.map (dotProd q) with hscores
    set sp := sortS rAscSnd (withIdxFrom 0 scores) with hsp
    have hslice : npTailSlice k (sp.map (·.1)) =
        (if k = 0 then sp else sp.drop (sp.length - k)).map (·.1) := by
      by_cases hk : k = 0
      · simp [npTailSlice, hk]
      · simp [npTailSlice, hk, List.map_drop]
    rw [hslice]
    set tt := (if k = 0 then sp else sp.drop (sp.length - k)) with htt
    rw [← List.map_reverse]
    set ttr := tt.reverse with httr
    rw [List.map_map, List.zip_map', List.pairwise_map]
    have hmem : ∀ p ∈ ttr, scores.getD p.1 0 = p.2 := by
      intro p hp
      have hp1 : p ∈ tt := List.mem_reverse.mp (httr ▸ hp)
      have hp2 : p ∈ sp := by
        rw [htt] at hp1
        rcases Classical.em (k = 0) with hk | hk
        · simpa [hk] using hp1
        · simp only [hk, if_false] at hp1
          exact List.mem_of_mem_drop hp1
      have hp3 : p ∈ withIdxFrom 0 scores := (mem_sortS _ _ _).mp hp2
      have := (withIdxFrom_spec scores 0 p hp3).2
      simpa using this
    have hsorted : sp.Pairwise fun a b => a.2 < b.2 ∨ (a.2 = b.2 ∧ a.1 < b.1) :=
      pairwise_sortS (fun p => p.2) (fun p => p.1) rAscSnd
        (by intro a b; simp [rAscSnd]) _ (withIdxFrom_pairwise _ 0)
    have htts : tt.Pairwise fun a b => a.2 < b.2 ∨ (a.2 = b.2 ∧ a.1 < b.1) := by
      rw [htt]
      split
      · exact hsorted
      · exact List.Pairwise.sublist (List.drop_sublist _ _) hsorted
    have httrs : ttr.Pairwise fun a b => b.2 < a.2 ∨ (b.2 = a.2 ∧ b.1 < a.1) := by
      rw [httr]
      exact List.pairwise_reverse.mpr htts
    refine List.Pairwise.imp_of_mem ?_ httrs
    intro a b ha hb hab
    simp only [Function.comp_apply]
    rw [hmem a ha, hmem b hb]
    rcases hab with h1 | ⟨h1, h2⟩
    · exact Or.inl h1
    · exact Or.inr ⟨h1.symm, h2⟩

/-- C3 counterexample: two identical stored vectors give equal scores, yet
`NumpyIndex.search` returns them as indices `[1, 0]` — the later-inserted
vector first — because the ascending argsort is reversed. Equal scores thus
appear in reverse insertion order in the numpy tier, refuting the tie-order
part of the claim. -/
theorem C3_counterexample :
    numpyIndexSearch [[1], [1]] [1] 2 = ([1, 1], [1, 0]) := by
  have hd : dotProd [1] ([1] : List ℚ) = 1 := by norm_num [dotProd]
  simp +decide [numpyIndexSearch, hd, withIdxFrom, sortS, insertS, rAscSnd,
    npArgsortAsc, npTailSlice]

/-- C3 amended: in all three search tiers the returned results are sorted by
non-increasing score; ties appear in insertion order in the exact-index tier
(spec-modelled external FAISS search) and in the keyword tier, but in
*reverse* insertion order in the in-memory numpy tier, whose ascending
argsort is reversed. -/
theorem C3_tier_ordering_amended (vectors : List (List ℚ)) (q : List ℚ)
    (k : Nat) (metadata : List MomentMeta) (query : String) (topK : Nat)
    (filters : Option Filters) :
    ((List.zip (faissIPSearch vectors q k).1 (faissIPSearch vectors q k).2).Pairwise
        fun a b => b.1 < a.1 ∨ (a.1 = b.1 ∧ a.2 < b.2)) ∧
      ((List.zip (numpyIndexSearch vectors q k).1 (numpyIndexSearch vectors q k).2).Pairwise
        fun a b => b.1 < a.1 ∨ (a.1 = b.1 ∧ b.2 < a.2)) ∧
      ((keyword_search metadata query topK filters).Pairwise fun r1 r2 =>
        r2.confidence < r1.confidence ∨
          (r1.confidence = r2.confidence ∧ r1.result_id < r2.result_id)) :=
  ⟨faissIPSearch_pairwise vectors q k, numpyIndexSearch_pairwise vectors q k,
   keyword_search_pairwise metadata query topK filters⟩

theorem kwScore_nonneg (allText : String) (kws : List String) :
    0 ≤ kwScore allText kws := by
  unfold kwScore
  refine le_foldl_of_step _ ?_ kws 0
  intro acc kw
  dsimp only
  split
  · have hc : (0 : ℚ) ≤ min ((pyCount kw allText : ℚ) * 0.5) 3.0 := by
      refine le_min ?_ (by norm_num)
      positivity
    linarith
  · exact le_refl acc

theorem hintScore_nonneg (fname : String) (hints : List String) :
    0 ≤ hintScore fname hints := by
  unfold hintScore
  refine le_foldl_of_step _ ?_ hints 0
  intro acc h
  dsimp only
  split
  · linarith
  · exact le_refl acc

theorem objScore_nonneg (objects hints : List String) :
    0 ≤ objScore objects hints := by
  unfold objScore
  refine le_foldl_of_step _ ?_ hints 0
  intro acc h
  dsimp only
  split
  · linarith
  · exact le_refl acc

theorem catScorePre_nonneg (text fname desc : String) (objects : List String)
    (cat : EmotionCategory) : 0 ≤ catScorePre text fname desc objects cat := by
  unfold catScorePre
  have h1 := kwScore_nonneg (text ++ " " ++ desc) cat.keywords
  have h2 := hintScore_nonneg fname cat.filename_hints
  have h3 := objScore_nonneg objects cat.object_hints
  have h4 : (0 : ℚ) ≤
      if cat.name == "analytical"
          && (pyIn "screen" fname || pyIn "recording" fname || pyIn "capture" fname)
      then 4.0 else 0 := by
    split
    · norm_num
    · exact le_refl 0
  linarith

theorem scoresFinal_nonneg (text fname desc : String) (objects : List String) :
    ∀ p ∈ scoresFinal text fname desc objects, 0 ≤ p.2 := by
  intro p hp
  unfold scoresFinal at hp
  dsimp only at hp
  split at hp
  · rcases List.mem_map.mp hp with ⟨q, hq, rfl⟩
    rcases List.mem_map.mp hq with ⟨cat, hcat, rfl⟩
    have := catScorePre_nonneg text fname desc objects cat
    split
    · dsimp only; linarith
    · dsimp only; linarith
  · rcases List.mem_map.mp hp with ⟨cat, hcat, rfl⟩
    exact catScorePre_nonneg text fname desc objects cat

theorem analyze_emotion_scores_nonneg (t f d : String) (o : List String) :
    ∀ p ∈ (analyze_emotion t f d o).scores, 0 ≤ p.2 := by
  intro p hp
  unfold analyze_emotion at hp
  dsimp only at hp
  split at hp
  · exact scoresFinal_nonneg _ _ _ _ p hp
  · exact scoresFinal_nonneg _ _ _ _ p hp

theorem keys_addW (l : List (String × ℚ)) (k : String) (d : ℚ) :
    (addW l k d).map (·.1) = l.map (·.1) := by
  induction l with
  | nil => rfl
  | cons p rest ih =>
    by_cases h : p.1 = k
    · simp only [addW, List.map_cons] at ih ⊢
      rw [if_pos h]
      simpa using ih
    · simp only [addW, List.map_cons] at ih ⊢
      rw [if_neg h]
      simpa using ih

theorem sumVals_addW_le (l : List (String × ℚ)) (k : String) (d : ℚ)
    (hd : 0 ≤ d) : sumVals l ≤ sumVals (addW l k d) := by
  induction l with
  | nil => simp [addW, sumVals]
  | cons p rest ih =>
    simp only [addW, sumVals, List.map_cons, List.sum_cons] at ih ⊢
    by_cases h : p.1 = k
    · rw [if_pos h]
      dsimp only
      linarith
    · rw [if_neg h]
      linarith

theorem sumVals_addW_add (l : List (String × ℚ)) (k : String) (d : ℚ)
    (hd : 0 ≤ d) (hk : k ∈ l.map (·.1)) :
    sumVals l + d ≤ sumVals (addW l k d) := by
  induction l with
  | nil => simp at hk
  | cons p rest ih =>
    simp only [List.map_cons, List.mem_cons] at hk
    simp only [addW, sumVals, List.map_cons, List.sum_cons] at ih ⊢
    by_cases h : p.1 = k
    · rw [if_pos h]
      dsimp only
      have hrest := sumVals_addW_le rest k d hd
      simp only [addW, sumVals] at hrest
      linarith
    · rw [if_neg h]
      have hk2 : k ∈ rest.map (·.1) := by
        rcases hk with h1 | h1
        · exact absurd h1.symm h
        · exact h1
      have := ih hk2
      linarith

theorem keys_addWIfMem (l : List (String × ℚ)) (k : String) (d : ℚ) :
    (addWIfMem l k d).map (·.1) = l.map (·.1) := by
  unfold addWIfMem
  split
  · exact keys_addW l k d
  · rfl

theorem sumVals_addWIfMem_le (l : List (String × ℚ)) (k : String) (d : ℚ)
    (hd : 0 ≤ d) : sumVals l ≤ sumVals (addWIfMem l k d) := by
  unfold addWIfMem
  split
  · exact sumVals_addW_le l k d hd
  · exact le_refl _

theorem sumVals_addWIfMem_add (l : List (String × ℚ)) (k : String) (d : ℚ)
    (hd : 0 ≤ d) (hk : k ∈ l.map (·.1)) :
    sumVals l + d ≤ sumVals (addWIfMem l k d) := by
  unfold addWIfMem
  rcases List.mem_map.mp hk with ⟨p, hp, hpk⟩
  rw [if_pos]
  · exact sumVals_addW_add l k d hd hk
  · exact List.any_eq_true.mpr ⟨p, hp, by simpa using hpk⟩

theorem keys_foldAdd (scores : List (String × ℚ)) :
    ∀ w0 : List (String × ℚ),
      (scores.foldl (fun w p => addWIfMem w p.1 (p.2 * 0.4)) w0).map (·.1) =
        w0.map (·.1) := by
  induction scores with
  | nil => intro w0; rfl
  | cons p rest ih =>
    intro w0
    simp only [List.foldl_cons]
    rw [ih, keys_addWIfMem]

theorem sumVals_foldAdd_le (scores : List (String × ℚ))
    (hs : ∀ p ∈ scores, 0 ≤ p.2) :
    ∀ w0 : List (String × ℚ),
      sumVals w0 ≤ sumVals (scores.foldl (fun w p => addWIfMem w p.1 (p.2 * 0.4)) w0) := by
  induction scores with
  | nil => intro w0; simp
  | cons p rest ih =>
    intro w0
    simp only [List.foldl_cons]
    have h1 : sumVals w0 ≤ sumVals (addWIfMem w0 p.1 (p.2 * 0.4)) := by
      refine sumVals_addWIfMem_le w0 p.1 _ ?_
      have := hs p (List.mem_cons_self _ _)
      positivity
    have h2 := ih (fun q hq => hs q (List.mem_cons_of_mem _ hq)) (addWIfMem w0 p.1 (p.2 * 0.4))
    exact le_trans h1 h2

theorem audioEmotionOf_mem (b : BehavioralMarkers) :
    audioEmotionOf b ∈ weightKeys := by
  unfold audioEmotionOf
  repeat' split
  all_goals decide

theorem visualEmotionOf_mem (fn : String) (cv : CVData) :
    visualEmotionOf fn cv ∈ weightKeys := by
  unfold visualEmotionOf visualEmotionBase
  dsimp only
  repeat' split
  all_goals decide

theorem foldl_max_mem (rest : List (String × ℚ)) :
    ∀ best : String × ℚ,
      rest.foldl (fun best q => if q.2 > best.2 then q else best) best ∈ best :: rest := by
  induction rest with
  | nil => intro best; simp
  | cons q rest ih =>
    intro best
    simp only [List.foldl_cons]
    rcases List.mem_cons.mp (ih (if q.2 > best.2 then q else best)) with h | h
    · rw [h]
      split
      · exact List.mem_cons_of_mem _ (List.mem_cons_self _ _)
      · exact List.mem_cons_self _ _
    · exact List.mem_cons_of_mem _ (List.mem_cons_of_mem _ h)

theorem argmaxPair_mem (l : List (String × ℚ)) (hl : l ≠ []) :
    argmaxPair l ∈ l := by
  cases l with
  | nil => exact absurd rfl hl
  | cons p rest =>
    simp only [argmaxPair]
    exact foldl_max_mem rest p

theorem keys_thoughtfulBump (l : List (String × ℚ)) :
    (l.map fun p => if p.1 = "thoughtful" then (p.1, p.2 + 1.5) else p).map (·.1) =
      l.map (·.1) := by
  induction l with
  | nil => rfl
  | cons p rest ih =>
    by_cases h : p.1 = "thoughtful"
    · simp only [List.map_cons]
      rw [if_pos h]
      simpa using ih
    · simp only [List.map_cons]
      rw [if_neg h]
      simpa using ih

/-- The eight category names of the score table, in insertion order. -/
def emotionCats : List String :=
  ["joy", "sadness", "anger", "fear", "disgust", "surprise", "analytical", "thoughtful"]

theorem scoresFinal_keys (text fname desc : String) (objects : List String) :
    (scoresFinal text fname desc objects).map (·.1) = emotionCats := by
  unfold scoresFinal
  dsimp only
  split
  · rw [keys_thoughtfulBump]
    rfl
  · rfl

theorem fallbackLabel_mem (f : String) : fallbackLabel f ∈ weightKeys := by
  have h3 : sumOrd f % fallbackPool.length < 3 := by
    have hlen : fallbackPool.length = 3 := rfl
    rw [hlen]
    exact Nat.mod_lt _ (by norm_num)
  have hcases : sumOrd f % fallbackPool.length = 0 ∨
      sumOrd f % fallbackPool.length = 1 ∨ sumOrd f % fallbackPool.length = 2 := by omega
  rcases hcases with h | h | h <;> · simp only [fallbackLabel, h]; decide

theorem analyze_emotion_label_mem (t f d : String) (o : List String) :
    (analyze_emotion t f d o).emotion ∈ weightKeys := by
  unfold analyze_emotion
  dsimp only
  split
  · exact fallbackLabel_mem _
  · have hkeys := scoresFinal_keys (pyLower t) (pyLower f) (pyLower d) (o.map pyLower)
    have hne : scoresFinal (pyLower t) (pyLower f) (pyLower d) (o.map pyLower) ≠ [] := by
      intro h
      rw [h] at hkeys
      simp [emotionCats] at hkeys
    have hmem := argmaxPair_mem _ hne
    have hfst : (argmaxPair (scoresFinal (pyLower t) (pyLower f) (pyLower d) (o.map pyLower))).1 ∈
        (scoresFinal (pyLower t) (pyLower f) (pyLower d) (o.map pyLower)).map (·.1) :=
      List.mem_map_of_mem _ hmem
    rw [hkeys] at hfst
    have hsub : ∀ x ∈ emotionCats, x ∈ weightKeys := by decide
    exact hsub _ hfst

theorem fuseWeights_sum_ge (fileName transcript : String) (cv : CVData)
    (b : BehavioralMarkers) :
    0.6 ≤ sumVals (fuseWeights fileName transcript cv b) := by
  unfold fuseWeights
  dsimp only
  set nlpRes := analyze_emotion transcript fileName cv.video_description cv.objects with hnlp
  set w1 := nlpRes.scores.foldl (fun w p => addWIfMem w p.1 (p.2 * 0.4)) initWeights with hw1
  set w2 := addWIfMem w1 nlpRes.emotion 0.2 with hw2
  set w3 := addWIfMem w2 (audioEmotionOf b) 0.3 with hw3
  have hk0 : initWeights.map (·.1) = weightKeys := rfl
  have hk1 : w1.map (·.1) = weightKeys := by
    rw [hw1, keys_foldAdd, hk0]
  have hk2 : w2.map (·.1) = weightKeys := by
    rw [hw2, keys_addWIfMem, hk1]
  have hk3 : w3.map (·.1) = weightKeys := by
    rw [hw3, keys_addWIfMem, hk2]
  have hs0 : sumVals initWeights = 0 := by
    simp [initWeights, sumVals, weightKeys]
  have h1 : sumVals initWeights ≤ sumVals w1 := by
    rw [hw1]
    exact sumVals_foldAdd_le nlpRes.scores
      (by rw [hnlp]; exact analyze_emotion_scores_nonneg _ _ _ _) initWeights
  have h2 : sumVals w1 ≤ sumVals w2 := by
    rw [hw2]
    exact sumVals_addWIfMem_le w1 nlpRes.emotion 0.2 (by norm_num)
  have h3 : sumVals w2 + 0.3 ≤ sumVals w3 := by
    rw [hw3]
    refine sumVals_addWIfMem_add w2 (audioEmotionOf b) 0.3 (by norm_num) ?_
    rw [hk2]
    exact audioEmotionOf_mem b
  have h4 : sumVals w3 + 0.3 ≤ sumVals (addWIfMem w3 (visualEmotionOf fileName cv) 0.3) := by
    refine sumVals_addWIfMem_add w3 (visualEmotionOf fileName cv) 0.3 (by norm_num) ?_
    rw [hk3]
    exact visualEmotionOf_mem fileName cv
  linarith

theorem sumVals_zero_of_all_zero (l : List (String × ℚ)) (h : ∀ p ∈ l, p.2 = 0) :
    sumVals l = 0 := by
  induction l with
  | nil => rfl
  | cons p rest ih =>
    have hrest := ih fun q hq => h q (List.mem_cons_of_mem _ hq)
    simp only [sumVals, List.map_cons, List.sum_cons] at hrest ⊢
    rw [h p (List.mem_cons_self _ _), hrest]
    norm_num

theorem lookupVal_zeros (l : List (String × ℚ)) (k : String) :
    lookupVal (l.map fun p => (p.1, (0 : ℚ))) k = 0 := by
  induction l with
  | nil => rfl
  | cons p rest ih =>
    unfold lookupVal at ih ⊢
    simp only [List.map_cons]
    by_cases h : (p.1 == k)
    · rw [List.find?_cons_of_pos _ (by simpa using h)]
    · rw [List.find?_cons_of_neg _ (by simpa using h)]
      exact ih

theorem argmaxPair_snd_zero (l : List (String × ℚ)) (h : ∀ p ∈ l, p.2 = 0) :
    (argmaxPair l).2 = 0 := by
  cases l with
  | nil => rfl
  | cons p rest =>
    simp only [argmaxPair]
    exact h _ (foldl_max_mem rest p)

theorem fuseEmotionLabel_eq_argmax (takeId : Nat) (fileName transcript : String)
    (cv : CVData) (b : BehavioralMarkers) :
    fuseEmotionLabel takeId fileName transcript cv b =
      (argmaxPair (fuseWeights fileName transcript cv b)).1 := by
  unfold fuseEmotionLabel
  dsimp only
  rw [if_neg]
  intro h0
  have := fuseWeights_sum_ge fileName transcript cv b
  rw [h0] at this
  norm_num at this

/-- C4: the fused emotion label and the generated intent embedding are pure
functions of the filename, transcript and external analyzer outputs — the
take id never influences them, because the id-keyed zero-weight fallback of
the orchestrator is unreachable (the audio and visual contributions always
deposit at least 0.6 of weight). And in the reachable all-zero case inside
`analyze_emotion`, the fallback label is drawn from the fixed rotation keyed
by the character-sum hash of the filename alone. -/
theorem C4_pipeline_determinism (embedFn : String → List ℚ) :
    (∀ (takeId takeId' : Nat) (fileName transcript : String) (cv : CVData)
        (b : BehavioralMarkers),
      fuseEmotionLabel takeId fileName transcript cv b =
          fuseEmotionLabel takeId' fileName transcript cv b ∧
        takeEmbedding embedFn takeId fileName transcript cv b =
          takeEmbedding embedFn takeId' fileName transcript cv b) ∧
      (∀ (transcript filename desc : String) (objs : List String),
        (∀ p ∈ scoresFinal (pyLower transcript) (pyLower filename) (pyLower desc)
            (objs.map pyLower), p.2 = 0) →
        (analyze_emotion transcript filename desc objs).emotion =
          fallbackLabel (pyLower filename)) := by
  constructor
  · intro takeId takeId' fileName transcript cv b
    have hlab : fuseEmotionLabel takeId fileName transcript cv b =
        fuseEmotionLabel takeId' fileName transcript cv b := by
      rw [fuseEmotionLabel_eq_argmax, fuseEmotionLabel_eq_argmax]
    refine ⟨hlab, ?_⟩
    unfold takeEmbedding takeIntentDescription
    rw [hlab]
  · intro transcript filename desc objs hz
    unfold analyze_emotion
    dsimp only
    rw [if_pos]
    constructor
    · unfold detectedEmotions
      rw [List.map_eq_nil_iff]
      rw [List.filter_eq_nil_iff]
      intro p hp
      have hnormd : normalizedScores (scoresFinal (pyLower transcript) (pyLower filename)
          (pyLower desc) (objs.map pyLower)) =
          (scoresFinal (pyLower transcript) (pyLower filename) (pyLower desc)
            (objs.map pyLower)).map fun p => (p.1, (0 : ℚ)) := by
        unfold normalizedScores
        rw [if_neg]
        rw [sumVals_zero_of_all_zero _ hz]
        norm_num
      rw [hnormd, lookupVal_zeros]
      norm_num
    · exact argmaxPair_snd_zero _ hz

/-- CV analyzer output used by the C4 witness. -/
def wCV : CVData := ⟨"", [], "calm", "simple"⟩

/-- Behavioural markers used by the C4 witness. -/
def wB : BehavioralMarkers := ⟨false, 0⟩

theorem C4_witness :
    fuseEmotionLabel 1 "take_01.mp4" "hello" wCV wB =
        fuseEmotionLabel 2 "take_01.mp4" "hello" wCV wB ∧
      takeEmbedding (fun _ => []) 1 "take_01.mp4" "hello" wCV wB =
        takeEmbedding (fun _ => []) 2 "take_01.mp4" "hello" wCV wB ∧
      (analyze_emotion "" "" "" []).emotion = fallbackLabel (pyLower "") := by
  have h := C4_pipeline_determinism (fun _ => [])
  have heval : scoresFinal (pyLower "") (pyLower "") (pyLower "")
      (([] : List String).map pyLower) =
      [("joy", 0), ("sadness", 0), ("anger", 0), ("fear", 0), ("disgust", 0),
       ("surprise", 0), ("analytical", 0), ("thoughtful", 0)] := by
    simp +decide [scoresFinal, scoresPre, catScorePre, kwScore, hintScore, objScore,
      emotionMap]
  have hz : ∀ p ∈ scoresFinal (pyLower "") (pyLower "") (pyLower "")
      (([] : List String).map pyLower), p.2 = 0 := by
    rw [heval]
    intro p hp
    fin_cases hp <;> rfl
  exact ⟨(h.1 1 2 "take_01.mp4" "hello" wCV wB).1,
         (h.1 1 2 "take_01.mp4" "hello" wCV wB).2,
         h.2 "" "" "" [] hz⟩

theorem assoc_unique (L : List (String × ℚ)) (c : String) (v : ℚ)
    (hnd : (L.map (·.1)).Nodup) (hcv : (c, v) ∈ L) :
    ∀ p ∈ L, p.1 = c → p = (c, v) := by
  induction L with
  | nil => intro p hp; simp at hp
  | cons q rest ih =>
    rw [List.map_cons] at hnd
    rcases List.nodup_cons.mp hnd with ⟨hq, hrest⟩
    intro p hp hpc
    rcases List.mem_cons.mp hcv with hcv1 | hcv2
    · rcases List.mem_cons.mp hp with rfl | hp2
      · exact hcv1.symm
      · exfalso
        apply hq
        have hq1 : q.1 = c := by rw [← hcv1]
        rw [hq1, ← hpc]
        exact List.mem_map_of_mem _ hp2
    · rcases List.mem_cons.mp hp with rfl | hp2
      · exfalso
        apply hq
        rw [hpc]
        exact List.mem_map_of_mem (·.1) hcv2
      · exact ih hrest hcv2 p hp2 hpc

theorem foldl_max_keep (c : String) (v : ℚ) (rest : List (String × ℚ))
    (hb : ∀ p ∈ rest, p.2 ≤ v) :
    rest.foldl (fun best q => if q.2 > best.2 then q else best) (c, v) = (c, v) := by
  induction rest with
  | nil => rfl
  | cons q rest ih =>
    simp only [List.foldl_cons]
    rw [if_neg]
    · exact ih fun p hp => hb p (List.mem_cons_of_mem _ hp)
    · have := hb q (List.mem_cons_self _ _)
      exact not_lt.mpr this

theorem foldl_max_find (c : String) (v : ℚ) (hv : 0 < v) :
    ∀ (rest : List (String × ℚ)) (best : String × ℚ),
      best.2 ≤ 0 → (c, v) ∈ rest →
      (∀ p ∈ rest, p.1 ≠ c → p.2 ≤ 0) →
      (∀ p ∈ rest, p.1 = c → p = (c, v)) →
      rest.foldl (fun best q => if q.2 > best.2 then q else best) best = (c, v) := by
  intro rest
  induction rest with
  | nil => intro best _ hmem; simp at hmem
  | cons q rest ih =>
    intro best hbest hmem hz huniq
    simp only [List.foldl_cons]
    by_cases hqc : q = (c, v)
    · subst hqc
      rw [if_pos (by dsimp only; linarith)]
      refine foldl_max_keep c v rest ?_
      intro p hp
      by_cases hpc : p.1 = c
      · exact le_of_eq (by rw [huniq p (List.mem_cons_of_mem _ hp) hpc])
      · have := hz p (List.mem_cons_of_mem _ hp) hpc
        linarith
    · have hq2 : q.2 ≤ 0 := by
        by_cases hqc2 : q.1 = c
        · exact absurd (huniq q (List.mem_cons_self _ _) hqc2) hqc
        · exact hz q (List.mem_cons_self _ _) hqc2
      have hmem2 : (c, v) ∈ rest := by
        rcases List.mem_cons.mp hmem with h | h
        · exact absurd h.symm hqc
        · exact h
      have hnext : (if q.2 > best.2 then q else best).2 ≤ 0 := by
        split
        · exact hq2
        · exact hbest
      exact ih _ hnext hmem2 (fun p hp => hz p (List.mem_cons_of_mem _ hp))
        (fun p hp => huniq p (List.mem_cons_of_mem _ hp))

theorem argmaxPair_unique (L : List (String × ℚ)) (c : String) (v : ℚ)
    (hv : 0 < v) (hnd : (L.map (·.1)).Nodup) (hcv : (c, v) ∈ L)
    (hz : ∀ p ∈ L, p.1 ≠ c → p.2 = 0) :
    argmaxPair L = (c, v) := by
  have huniq := assoc_unique L c v hnd hcv
  cases L with
  | nil => simp at hcv
  | cons q rest =>
    simp only [argmaxPair]
    by_cases hqc : q = (c, v)
    · subst hqc
      refine foldl_max_keep c v rest ?_
      intro p hp
      by_cases hpc : p.1 = c
      · exact le_of_eq (by rw [huniq p (List.mem_cons_of_mem _ hp) hpc])
      · have := hz p (List.mem_cons_of_mem _ hp) hpc
        linarith
    · have hq0 : q.2 ≤ 0 := by
        by_cases hqc2 : q.1 = c
        · exact absurd (huniq q (List.mem_cons_self _ _) hqc2) hqc
        · have := hz q (List.mem_cons_self _ _) hqc2
          linarith
      have hmem2 : (c, v) ∈ rest := by
        rcases List.mem_cons.mp hcv with h | h
        · exact absurd h.symm hqc
        · exact h
      refine foldl_max_find c v hv rest q hq0 hmem2 ?_ ?_
      · intro p hp hpc
        have := hz p (List.mem_cons_of_mem _ hp) hpc
        linarith
      · intro p hp hpc
        exact huniq p (List.mem_cons_of_mem _ hp) hpc

theorem sumVals_single_pos (L : List (String × ℚ)) (c : String) (v : ℚ)
    (hnd : (L.map (·.1)).Nodup) (hcv : (c, v) ∈ L)
    (hz : ∀ p ∈ L, p.1 ≠ c → p.2 = 0) :
    sumVals L = v := by
  induction L with
  | nil => simp at hcv
  | cons q rest ih =>
    rw [List.map_cons] at hnd
    rcases List.nodup_cons.mp hnd with ⟨hq, hrest⟩
    simp only [sumVals, List.map_cons, List.sum_cons]
    rcases List.mem_cons.mp hcv with h | h
    · have hrest0 : ∀ p ∈ rest, p.2 = 0 := by
        intro p hp
        refine hz p (List.mem_cons_of_mem _ hp) ?_
        intro hpc
        apply hq
        have hq1 : q.1 = c := by rw [← h]
        rw [hq1, ← hpc]
        exact List.mem_map_of_mem _ hp
      have hsum0 := sumVals_zero_of_all_zero rest hrest0
      simp only [sumVals] at hsum0
      rw [hsum0, ← h]
      norm_num
    · have hqc : q.1 ≠ c := by
        intro hqc
        apply hq
        rw [hqc]
        exact List.mem_map_of_mem (·.1) h
      have hq0 := hz q (List.mem_cons_self _ _) hqc
      have hih := ih hrest h fun p hp hpc => hz p (List.mem_cons_of_mem _ hp) hpc
      simp only [sumVals] at hih
      rw [hq0, hih]
      norm_num

theorem round3_zero : round3 0 = 0 := by
  unfold round3 roundHalfEven
  norm_num

theorem round3_one : round3 1 = 1 := by
  unfold round3 roundHalfEven
  norm_num

theorem sumVals_round3_div (v : ℚ) (hv : 0 < v) :
    ∀ (L : List (String × ℚ)) (c : String),
      (L.map (·.1)).Nodup → (c, v) ∈ L → (∀ p ∈ L, p.1 ≠ c → p.2 = 0) →
      sumVals (L.map fun p => (p.1, round3 (p.2 / v))) = 1 := by
  intro L
  induction L with
  | nil => intro c _ hcv; simp at hcv
  | cons q rest ih =>
    intro c hnd hcv hz
    rw [List.map_cons] at hnd
    rcases List.nodup_cons.mp hnd with ⟨hq, hrest⟩
    simp only [sumVals, List.map_cons, List.sum_cons]
    rcases List.mem_cons.mp hcv with h | h
    · have hrest0 : ∀ p ∈ rest.map fun p => (p.1, round3 (p.2 / v)), p.2 = 0 := by
        intro p hp
        rcases List.mem_map.mp hp with ⟨r, hr, rfl⟩
        have hr0 : r.2 = 0 := by
          refine hz r (List.mem_cons_of_mem _ hr) ?_
          intro hpc
          apply hq
          have hq1 : q.1 = c := by rw [← h]
          rw [hq1, ← hpc]
          exact List.mem_map_of_mem _ hr
        dsimp only
        rw [hr0, zero_div, round3_zero]
      have hsum0 := sumVals_zero_of_all_zero _ hrest0
      simp only [sumVals] at hsum0
      rw [hsum0, ← h]
      dsimp only
      rw [div_self (ne_of_gt hv), round3_one]
      norm_num
    · have hqc : q.1 ≠ c := by
        intro hqc
        apply hq
        rw [hqc]
        exact List.mem_map_of_mem (·.1) h
      have hq0 := hz q (List.mem_cons_self _ _) hqc
      have hih := ih c hrest h fun p hp hpc => hz p (List.mem_cons_of_mem _ hp) hpc
      simp only [sumVals] at hih
      rw [hq0, hih]
      rw [zero_div, round3_zero]
      norm_num

theorem sumVals_normalized_single (L : List (String × ℚ)) (c : String) (v : ℚ)
    (hv : 0 < v) (hnd : (L.map (·.1)).Nodup) (hcv : (c, v) ∈ L)
    (hz : ∀ p ∈ L, p.1 ≠ c → p.2 = 0) :
    sumVals (normalizedScores L) = 1 := by
  have htot : sumVals L = v := sumVals_single_pos L c v hnd hcv hz
  unfold normalizedScores
  rw [htot, if_pos hv]
  exact sumVals_round3_div v hv L c hnd hcv hz

/-- C7: when the computed score table gives positive weight to exactly one
emotion category (a transcript containing only keywords of that category,
with empty filename, no description and no detected objects), then
`analyze_emotion` returns that category as the label, and the normalized
score distribution sums to exactly 1. -/
theorem C7_single_category_fusion (t c : String) (v : ℚ) (hv : 0 < v)
    (hcv : (c, v) ∈ scoresFinal (pyLower t) (pyLower "") (pyLower "")
      (([] : List String).map pyLower))
    (hz : ∀ p ∈ scoresFinal (pyLower t) (pyLower "") (pyLower "")
        (([] : List String).map pyLower), p.1 ≠ c → p.2 = 0) :
    (analyze_emotion t "" "" []).emotion = c ∧
      sumVals (normalizedScores (scoresFinal (pyLower t) (pyLower "") (pyLower "")
        (([] : List String).map pyLower))) = 1 := by
  have hnd : ((scoresFinal (pyLower t) (pyLower "") (pyLower "")
      (([] : List String).map pyLower)).map (·.1)).Nodup := by
    rw [scoresFinal_keys]
    decide
  have hmax := argmaxPair_unique _ c v hv hnd hcv hz
  constructor
  · unfold analyze_emotion
    dsimp only
    rw [if_neg]
    · show (argmaxPair _).1 = c
      rw [hmax]
    · intro hcon
      have h2 := hcon.2
      rw [hmax] at h2
      exact absurd h2 (ne_of_gt hv)
  · exact sumVals_normalized_single _ c v hv hnd hcv hz

theorem C7_witness :
    (analyze_emotion "happy" "" "" []).emotion = "joy" ∧
      sumVals (normalizedScores (scoresFinal (pyLower "happy") (pyLower "")
        (pyLower "") (([] : List String).map pyLower))) = 1 := by
  have hmin : min ((1 : ℚ) * 0.5) 3.0 = 0.5 := by
    rw [min_def]
    norm_num
  have hc1 : pyCount "happy" (pyLower "happy" ++ " " ++ pyLower "") = 1 := by decide
  have heval : scoresFinal (pyLower "happy") (pyLower "") (pyLower "")
      (([] : List String).map pyLower) =
      [("joy", 0.5), ("sadness", 0), ("anger", 0), ("fear", 0), ("disgust", 0),
       ("surprise", 0), ("analytical", 0), ("thoughtful", 0)] := by
    simp +decide [scoresFinal, scoresPre, catScorePre, kwScore, hintScore, objScore,
      emotionMap, hc1, Nat.cast_one, hmin]
    norm_num
  have hcv : (("joy", (0.5 : ℚ))) ∈ scoresFinal (pyLower "happy") (pyLower "")
      (pyLower "") (([] : List String).map pyLower) := by
    rw [heval]
    exact List.mem_cons_self _ _
  have hz : ∀ p ∈ scoresFinal (pyLower "happy") (pyLower "") (pyLower "")
      (([] : List String).map pyLower), p.1 ≠ "joy" → p.2 = 0 := by
    rw [heval]
    intro p hp
    fin_cases hp <;> intro h
    · exact absurd rfl h
    all_goals rfl
  exact C7_single_category_fusion "happy" "joy" 0.5 (by norm_num) hcv hz
